import Mathlib

/-
Verification of the causal graphical model engine: graph construction with
latent confounders, d-separation, the intervention operator, and the
backdoor and frontdoor adjustment-set criteria.  The definitions below are a
shallow embedding of the Python class CausalGraphicalModel (cgm.py): node
names are strings, Python frozensets become lists used only through
membership, and fallible operations (assert statements, networkx errors)
return Except values.
-/

namespace CGMSpec

/-- The constructor arguments of CausalGraphicalModel: the user-visible
nodes, the directed edges, the latent confounder edges and the intervened
nodes.  A value of this record corresponds to a constructor call; the
validity checks the Python constructor performs are in mkCGM below. -/
structure CGM where
  nodes : List String
  edges : List (String × String)
  latent_edges : List (String × String)
  set_nodes : List String
deriving DecidableEq, Repr

/-- observed_variables: frozenset(nodes). -/
def obs (g : CGM) : List String := g.nodes

/-- The latent edges as the Python frozenset: duplicates removed.  The
iteration order of the Python frozenset is arbitrary; we fix the first
occurrence order of the input list. -/
def latentL (g : CGM) : List (String × String) := g.latent_edges.dedup

/-- The synthetic name given to the i-th latent confounder. -/
def unobName (i : Nat) : String := "Unobserved_" ++ toString i

/-- unobserved_variables: one synthetic identifier per latent edge. -/
def unobservedNames (g : CGM) : List String :=
  (List.range (latentL g).length).map unobName

/-- The directed edges the constructor adds for the latent confounders:
for the i-th latent pair (a, b), edges Unobserved_i to a and to b. -/
def synthEdges (g : CGM) : List (String × String) :=
  ((unobservedNames g).zip (latentL g)).flatMap
    (fun e => [(e.1, e.2.1), (e.1, e.2.2)])

/-- The edge list of self.dag: the user edges plus the synthetic ones. -/
def dagEdges (g : CGM) : List (String × String) :=
  g.edges ++ synthEdges g

/-- The node set of self.dag: the declared nodes plus every edge endpoint
(networkx add_edges_from inserts endpoints, and the synthetic nodes are
endpoints of the synthetic edges). -/
def dagNodes (g : CGM) : List String :=
  g.nodes ++ (dagEdges g).flatMap (fun e => [e.1, e.2])

/-- Reachability along a directed edge list: zero or more steps. -/
inductive Reaches (E : List (String × String)) : String → String → Prop
  | refl (a : String) : Reaches E a a
  | step {a b c : String} : Reaches E a b → (b, c) ∈ E → Reaches E a c

/-- Add an element to a list if it is not already present. -/
def addNew (s : List String) (v : String) : List String :=
  if v ∈ s then s else s ++ [v]

/-- One saturation step of reachability: add every target of an edge whose
source is already in the set. -/
def satStep (E : List (String × String)) (s : List String) : List String :=
  ((E.filter (fun e => decide (e.1 ∈ s))).map Prod.snd).foldl addNew s

/-- Iterated saturation. -/
def satIter (E : List (String × String)) : Nat → List String → List String
  | 0, s => s
  | k + 1, s => satIter E k (satStep E s)

/-- The set of nodes reachable from a, computed by saturation; this is
nx.descendants(dag, a) together with a itself. -/
def reachList (E : List (String × String)) (a : String) : List String :=
  satIter E (E.length + 1) [a]

/-- nx.descendants(self.dag, x): every node reachable from x, x itself
excluded. -/
def descendants (g : CGM) (x : String) : List String :=
  (reachList (dagEdges g) x).filter (fun v => decide (v ≠ x))

/-- nx.is_directed_acyclic_graph: no directed cycle, i.e. no edge whose
target reaches back to its source. -/
def acyclicB (E : List (String × String)) : Prop :=
  ∀ e ∈ E, ¬ e.1 ∈ reachList E e.2

instance (E : List (String × String)) : Decidable (acyclicB E) :=
  inferInstanceAs (Decidable (∀ e ∈ E, ¬ e.1 ∈ reachList E e.2))

/-- The constructor assertion on set nodes: each set node is a node of the
dag (nx.ancestors fails otherwise) and has no ancestors there. -/
def setNodesOk (g : CGM) : Prop :=
  ∀ s ∈ g.set_nodes, s ∈ dagNodes g ∧
    ∀ u ∈ dagNodes g, u ≠ s → ¬ s ∈ reachList (dagEdges g) u

instance (g : CGM) : Decidable (setNodesOk g) :=
  inferInstanceAs (Decidable (∀ s ∈ g.set_nodes, s ∈ dagNodes g ∧
    ∀ u ∈ dagNodes g, u ≠ s → ¬ s ∈ reachList (dagEdges g) u))

/-- The checks run by the CausalGraphicalModel constructor. -/
def validCGM (g : CGM) : Prop := acyclicB (dagEdges g) ∧ setNodesOk g

instance (g : CGM) : Decidable (validCGM g) :=
  inferInstanceAs (Decidable (acyclicB (dagEdges g) ∧ setNodesOk g))

/-- CausalGraphicalModel.__init__ : store the arguments and fail when the
directed graph is cyclic or a set node has an ancestor. -/
def mkCGM (nodes : List String) (edges latent : List (String × String))
    (sets : List String) : Except String CGM :=
  if validCGM ⟨nodes, edges, latent, sets⟩ then
    .ok ⟨nodes, edges, latent, sets⟩
  else .error "StructureError"

/-- The set nodes after do(node): the union with the singleton node. -/
def doSets (g : CGM) (node : String) : List String :=
  if node ∈ g.set_nodes then g.set_nodes else node :: g.set_nodes

/-- The edges kept by do(node): dag edges between observed variables that
do not point into node. -/
def doEdges (g : CGM) (node : String) : List (String × String) :=
  (dagEdges g).filter
    (fun e => decide (¬ e.2 = node ∧ e.1 ∈ obs g ∧ e.2 ∈ obs g))

/-- The latent edges kept by do(node): those touching no new set node. -/
def doLatent (g : CGM) (node : String) : List (String × String) :=
  (latentL g).filter
    (fun e => decide (¬ e.1 ∈ doSets g node ∧ ¬ e.2 ∈ doSets g node))

/-- CausalGraphicalModel.do : drop the directed edges into the node, mark
it as set, drop the latent edges touching a set node, and rebuild through
the constructor. -/
def doOp (g : CGM) (node : String) : Except String CGM :=
  if node ∈ obs g then
    mkCGM (obs g) (doEdges g node) (doLatent g node) (doSets g node)
  else .error "AssertionError"

/-- Depth-first enumeration of the simple paths ending at y, starting at c,
avoiding the already visited nodes vis.  This models the generator
nx.all_simple_paths; nbr gives the neighbours of a node. -/
def pathsFrom (nbr : String → List String) (y : String) :
    Nat → String → List String → List (List String)
  | 0, _, _ => []
  | fuel + 1, c, vis =>
    if c = y then [[y]]
    else ((nbr c).filter (fun n => decide (¬ n ∈ vis ∧ n ≠ c))).flatMap
      (fun n => (pathsFrom nbr y fuel n (vis ++ [c])).map (fun p => c :: p))

/-- nx.all_simple_paths with a given fuel; an empty result when source and
target coincide. -/
def allPaths (nbr : String → List String) (fuel : Nat) (x y : String) :
    List (List String) :=
  if x = y then [] else pathsFrom nbr y fuel x []

/-- A simple path from x to y in the graph of relation R: consecutive
nodes are related, no node repeats. -/
def SimplePath (R : String → String → Prop) (x y : String)
    (p : List String) : Prop :=
  p.head? = some x ∧ p.getLast? = some y ∧ p.Chain' R ∧ p.Nodup

/-- The nodes of the dag without duplicates; used as the neighbour pool. -/
def dagNodesD (g : CGM) : List String := (dagNodes g).dedup

/-- The directed edge relation of self.dag. -/
def EdgeRel (g : CGM) (a b : String) : Prop := (a, b) ∈ dagEdges g

/-- The adjacency relation of the undirected shadow graph self.graph. -/
def AdjRel (g : CGM) (a b : String) : Prop :=
  (a, b) ∈ dagEdges g ∨ (b, a) ∈ dagEdges g

instance (g : CGM) (a b : String) : Decidable (EdgeRel g a b) :=
  inferInstanceAs (Decidable ((a, b) ∈ dagEdges g))

instance (g : CGM) (a b : String) : Decidable (AdjRel g a b) :=
  inferInstanceAs (Decidable ((a, b) ∈ dagEdges g ∨ (b, a) ∈ dagEdges g))

/-- The neighbour lists of the undirected shadow graph. -/
def nbrU (g : CGM) (c : String) : List String :=
  (dagNodesD g).filter (fun n => decide (AdjRel g c n))

/-- The successor lists of the directed graph. -/
def nbrD (g : CGM) (c : String) : List String :=
  (dagNodesD g).filter (fun n => decide (EdgeRel g c n))

/-- Fuel large enough to enumerate every simple path of the graph. -/
def graphFuel (g : CGM) : Nat := (dagNodesD g).length + 1

/-- nx.all_simple_paths(self.graph, x, y): simple paths of the shadow. -/
def allSimplePathsU (g : CGM) (x y : String) : List (List String) :=
  allPaths (nbrU g) (graphFuel g) x y

/-- nx.all_simple_paths(self.dag, x, y): simple directed paths. -/
def allSimplePathsD (g : CGM) (x y : String) : List (List String) :=
  allPaths (nbrD g) (graphFuel g) x y

/-- The three local structures of _classify_three_structure. -/
inductive Tri
  | chain
  | fork
  | collider
deriving DecidableEq, Repr

/-- CausalGraphicalModel._classify_three_structure, with the final
ValueError branch represented by none. -/
def classifyThree (g : CGM) (a b c : String) : Option Tri :=
  if (a, b) ∈ dagEdges g ∧ (b, c) ∈ dagEdges g then some Tri.chain
  else if (c, b) ∈ dagEdges g ∧ (b, a) ∈ dagEdges g then some Tri.chain
  else if (a, b) ∈ dagEdges g ∧ (c, b) ∈ dagEdges g then some Tri.collider
  else if (b, a) ∈ dagEdges g ∧ (b, c) ∈ dagEdges g then some Tri.fork
  else none

/-- The consecutive triples of a path, as zipped in _check_d_separation. -/
def triples : List String → List (String × String × String)
  | a :: b :: c :: rest => (a, b, c) :: triples (b :: c :: rest)
  | _ => []

/-- The loop body of _check_d_separation over the triples of the path;
an unclassifiable triple raises. -/
def scanTriples (g : CGM) (zs : List String) :
    List (String × String × String) → Except String Bool
  | [] => Except.ok false
  | (a, b, c) :: rest =>
    match classifyThree g a b c with
    | none => Except.error "ClassificationError"
    | some t =>
      if (t = Tri.chain ∨ t = Tri.fork) ∧ b ∈ zs then Except.ok true
      else if t = Tri.collider ∧ ∀ d ∈ reachList (dagEdges g) b, ¬ d ∈ zs
        then Except.ok true
      else scanTriples g zs rest

/-- CausalGraphicalModel._check_d_separation : whether the path is blocked
by the conditioning set zs. -/
def checkDSeparation (g : CGM) (path : List String) (zs : List String) :
    Except String Bool :=
  if path.length < 3 then Except.ok false
  else scanTriples g zs (triples path)

/-- The conjunction all(...) of _check_d_separation over a path list,
with short-circuit on the first unblocked path. -/
def allBlocked (g : CGM) (zs : List String) :
    List (List String) → Except String Bool
  | [] => Except.ok true
  | p :: ps =>
    match checkDSeparation g p zs with
    | Except.error e => Except.error e
    | Except.ok true => allBlocked g zs ps
    | Except.ok false => Except.ok false

/-- CausalGraphicalModel.is_d_separated, with the three asserts. -/
def isDSeparated (g : CGM) (x y : String) (zs : List String) :
    Except String Bool :=
  if x ∈ obs g ∧ y ∈ obs g ∧ ∀ z ∈ zs, z ∈ obs g then
    allBlocked g zs (allSimplePathsU g x y)
  else Except.error "AssertionError"

/-- The blocking condition of the specification for one triple: chain or
fork with conditioned middle, or collider whose descendants together with
the middle avoid the conditioning set. -/
def TripleBlocks (g : CGM) (zs : List String)
    (t : String × String × String) : Prop :=
  ((classifyThree g t.1 t.2.1 t.2.2 = some Tri.chain ∨
      classifyThree g t.1 t.2.1 t.2.2 = some Tri.fork) ∧ t.2.1 ∈ zs) ∨
  (classifyThree g t.1 t.2.1 t.2.2 = some Tri.collider ∧
    ∀ d, Reaches (dagEdges g) t.2.1 d → ¬ d ∈ zs)

/-- The blocking condition of the specification for a path: fewer than
three nodes never block; otherwise some consecutive triple blocks. -/
def SpecBlocked (g : CGM) (zs : List String) (p : List String) : Prop :=
  3 ≤ p.length ∧ ∃ t ∈ triples p, TripleBlocks g zs t

/-- The filter of get_all_backdoor_paths: length above two and the second
node a parent of x. -/
def isBackdoorPathB (g : CGM) (x : String) : List String → Bool
  | _ :: b :: _ :: _ => decide ((b, x) ∈ dagEdges g)
  | _ => false

/-- CausalGraphicalModel.get_all_backdoor_paths. -/
def backdoorPaths (g : CGM) (x y : String) : List (List String) :=
  (allSimplePathsU g x y).filter (isBackdoorPathB g x)

/-- The declarative description of the paths get_all_backdoor_paths
returns: a simple shadow path of at least three nodes leaving x through
an incoming edge. -/
def BackdoorPath (g : CGM) (x y : String) (p : List String) : Prop :=
  SimplePath (AdjRel g) x y p ∧ 3 ≤ p.length ∧
    ∃ b, p.tail.head? = some b ∧ (b, x) ∈ dagEdges g

/-- The any(...) loop over the candidate descendants. -/
def anyDescendant (g : CGM) (x : String) (z : List String) : Bool :=
  z.any (fun zz => decide (zz ∈ descendants g x))

/-- The list comprehension of unblocked paths, evaluated in order with the
first classification error propagating. -/
def filterUnblocked (g : CGM) (zs : List String) :
    List (List String) → Except String (List (List String))
  | [] => Except.ok []
  | p :: ps =>
    match checkDSeparation g p zs with
    | Except.error e => Except.error e
    | Except.ok b =>
      match filterUnblocked g zs ps with
      | Except.error e => Except.error e
      | Except.ok rest => Except.ok (if b then rest else p :: rest)

/-- CausalGraphicalModel.is_valid_backdoor_adjustment_set. -/
def isValidBackdoorAdjustmentSet (g : CGM) (x y : String)
    (z : List String) : Except String Bool :=
  if x ∈ obs g ∧ y ∈ obs g ∧ ¬ x ∈ z ∧ ¬ y ∈ z then
    if anyDescendant g x z then Except.ok false
    else
      match filterUnblocked g z (backdoorPaths g x y) with
      | Except.error e => Except.error e
      | Except.ok unblocked => Except.ok unblocked.isEmpty
  else Except.error "AssertionError"

/-- The backdoor criterion as the specification words it: no conditioned
descendant of x, and every backdoor path blocked. -/
def BackdoorValidSpec (g : CGM) (x y : String) (z : List String) : Prop :=
  (∀ zz ∈ z, ¬ (Reaches (dagEdges g) x zz ∧ zz ≠ x)) ∧
    ∀ p, BackdoorPath g x y p → SpecBlocked g z p

/-- The candidate pool of get_all_backdoor_adjustment_sets: observed
variables other than x, y and the descendants of x. -/
def candidatePool (g : CGM) (x y : String) : List String :=
  ((obs g).dedup).filter
    (fun v => decide (¬ v = x ∧ ¬ v = y ∧ ¬ v ∈ descendants g x))

/-- The filtering of the power set by the validity test. -/
def filterValidSets (g : CGM) (x y : String) :
    List (List String) → Except String (List (List String))
  | [] => Except.ok []
  | s :: ss =>
    match isValidBackdoorAdjustmentSet g x y s with
    | Except.error e => Except.error e
    | Except.ok b =>
      match filterValidSets g x y ss with
      | Except.error e => Except.error e
      | Except.ok rest => Except.ok (if b then s :: rest else rest)

/-- CausalGraphicalModel.get_all_backdoor_adjustment_sets. -/
def getAllBackdoorAdjustmentSets (g : CGM) (x y : String) :
    Except String (List (List String)) :=
  if x ∈ obs g ∧ y ∈ obs g then
    filterValidSets g x y (candidatePool g x y).sublists
  else Except.error "AssertionError"

/-- The directed paths from x to y avoiding every member of z, as in
step 1 of is_valid_frontdoor_adjustment_set. -/
def unblockedDirected (g : CGM) (x y : String) (z : List String) :
    List (List String) :=
  (allSimplePathsD g x y).filter
    (fun p => ! z.any (fun zz => decide (zz ∈ p)))

/-- Step 2 of is_valid_frontdoor_adjustment_set: for each member of z,
collect the backdoor paths from x to it unblocked by z minus that
member. -/
def scanZBackdoors (g : CGM) (x : String) (z : List String) :
    List String → Except String (List (List String))
  | [] => Except.ok []
  | zz :: rest =>
    match filterUnblocked g (z.filter (fun w => decide (¬ w = zz)))
        (backdoorPaths g x zz) with
    | Except.error e => Except.error e
    | Except.ok l1 =>
      match scanZBackdoors g x z rest with
      | Except.error e => Except.error e
      | Except.ok l2 => Except.ok (l1 ++ l2)

/-- Step 3 of is_valid_frontdoor_adjustment_set: x alone must be a valid
backdoor adjustment set for each member of z on y, short-circuiting. -/
def allBackdoorOnZ (g : CGM) (y x : String) : List String → Except String Bool
  | [] => Except.ok true
  | zz :: rest =>
    match isValidBackdoorAdjustmentSet g zz y [x] with
    | Except.error e => Except.error e
    | Except.ok true => allBackdoorOnZ g y x rest
    | Except.ok false => Except.ok false

/-- CausalGraphicalModel.is_valid_frontdoor_adjustment_set. -/
def isValidFrontdoorAdjustmentSet (g : CGM) (x y : String)
    (z : List String) : Except String Bool :=
  if ¬ unblockedDirected g x y z = [] then Except.ok false
  else
    match scanZBackdoors g x z z with
    | Except.error e => Except.error e
    | Except.ok unb =>
      if ¬ unb = [] then Except.ok false
      else allBackdoorOnZ g y x z

/-- The frontdoor criterion as the specification words it. -/
def FrontdoorValidSpec (g : CGM) (x y : String) (z : List String) : Prop :=
  (∀ p, SimplePath (EdgeRel g) x y p → ∃ zz ∈ z, zz ∈ p) ∧
  (∀ zz ∈ z, ∀ p, BackdoorPath g x zz p →
    SpecBlocked g (z.filter (fun w => decide (¬ w = zz))) p) ∧
  (∀ zz ∈ z, BackdoorValidSpec g zz y [x])

/-- examples.py simple_confounded: nodes x, y, z with edges z to x, z to
y and x to y. -/
def simpleConfounded : CGM :=
  ⟨["x", "y", "z"], [("z", "x"), ("z", "y"), ("x", "y")], [], []⟩

/-- examples.py sprinkler. -/
def sprinkler : CGM :=
  ⟨["season", "rain", "sprinkler", "wet", "slippery"],
   [("season", "rain"), ("season", "sprinkler"), ("rain", "wet"),
    ("sprinkler", "wet"), ("wet", "slippery")], [], []⟩

/-- Modelled from the spec: the tests import
simple_confounded_hidden_confounder from examples.py, which the sources
under src do not define; the spec scenario describes it as the confounder
graph with z replaced by a latent confounder edge between x and y and no
observed z. -/
def simpleConfoundedHidden : CGM :=
  ⟨["x", "y"], [("x", "y")], [("x", "y")], []⟩

/-- Modelled from the spec: the tests import front_door_example from
examples.py, which the sources under src do not define; the spec scenario
describes it as x to z to y with a latent confounder between x and y. -/
def frontDoorExample : CGM :=
  ⟨["x", "y", "z"], [("x", "z"), ("z", "y")], [("x", "y")], []⟩

/-- A store whose observed node names collide with the synthetic latent
identifier Unobserved_0; its construction succeeds. -/
def collidingStore : CGM :=
  ⟨["Unobserved_0", "a", "b"], [], [("a", "b")], []⟩

/-- A store on which the intervention operator fails: the user node named
Unobserved_0 has an incoming edge, and dropping the first latent edge
renumbers the second so that the rebuilt graph is cyclic. -/
def doFailStore : CGM :=
  ⟨["Unobserved_0", "a", "b", "c", "n"], [("a", "Unobserved_0")],
   [("n", "c"), ("a", "b")], []⟩

/-- A two node store with the single edge y to x. -/
def twoNodeStore : CGM := ⟨["x", "y"], [("y", "x")], [], []⟩

/-- The store produced by do("x") on the simple confounded store. -/
def simpleConfoundedDoX : CGM :=
  ⟨["x", "y", "z"], [("z", "y"), ("x", "y")], [], ["x"]⟩


theorem Reaches.trans {E : List (String × String)} {a b c : String}
    (h1 : Reaches E a b) (h2 : Reaches E b c) : Reaches E a c := by
  induction h2 with
  | refl => exact h1
  | step _ hbc ih => exact Reaches.step ih hbc

theorem Reaches.congr_mem {E E' : List (String × String)} {a b : String}
    (hE : ∀ e, e ∈ E ↔ e ∈ E') (h : Reaches E a b) : Reaches E' a b := by
  induction h with
  | refl => exact Reaches.refl _
  | step _ hbc ih => exact Reaches.step ih ((hE _).mp hbc)

theorem mem_foldl_addNew (l : List String) (s : List String) (x : String) :
    x ∈ l.foldl addNew s ↔ x ∈ s ∨ x ∈ l := by
  induction l generalizing s with
  | nil => simp
  | cons v l ih =>
    simp only [List.foldl_cons, ih, addNew]
    by_cases hv : v ∈ s
    · simp only [if_pos hv, List.mem_cons]
      constructor
      · rintro (h | h)
        · exact Or.inl h
        · exact Or.inr (Or.inr h)
      · rintro (h | h | h)
        · exact Or.inl h
        · exact Or.inl (h ▸ hv)
        · exact Or.inr h
    · simp only [if_neg hv, List.mem_append, List.mem_singleton, List.mem_cons]
      tauto

theorem nodup_foldl_addNew (l : List String) (s : List String)
    (hs : s.Nodup) : (l.foldl addNew s).Nodup := by
  induction l generalizing s with
  | nil => exact hs
  | cons v l ih =>
    simp only [List.foldl_cons, addNew]
    by_cases hv : v ∈ s
    · simpa [if_pos hv] using ih s hs
    · refine ih _ ?_
      simp [if_neg hv, List.nodup_append, hs, hv]

theorem length_foldl_addNew_ge (l : List String) (s : List String) :
    s.length ≤ (l.foldl addNew s).length := by
  induction l generalizing s with
  | nil => exact Nat.le_refl _
  | cons v l ih =>
    simp only [List.foldl_cons, addNew]
    by_cases hv : v ∈ s
    · simpa [if_pos hv] using ih s
    · calc s.length ≤ (s ++ [v]).length := by simp
        _ ≤ _ := by simpa [if_neg hv] using ih (s ++ [v])

theorem foldl_addNew_all_mem (l : List String) (s : List String)
    (h : ∀ v ∈ l, v ∈ s) : l.foldl addNew s = s := by
  induction l with
  | nil => rfl
  | cons v l ih =>
    have hv : v ∈ s := h v (List.mem_cons_self _ _)
    simp only [List.foldl_cons, addNew, if_pos hv]
    exact ih (fun w hw => h w (List.mem_cons_of_mem _ hw))

theorem foldl_addNew_eq_or_lt (l : List String) (s : List String) :
    l.foldl addNew s = s ∨ s.length < (l.foldl addNew s).length := by
  induction l generalizing s with
  | nil => exact Or.inl rfl
  | cons v l ih =>
    simp only [List.foldl_cons, addNew]
    by_cases hv : v ∈ s
    · simpa [if_pos hv] using ih s
    · right
      simp only [if_neg hv]
      calc s.length < (s ++ [v]).length := by simp
        _ ≤ _ := length_foldl_addNew_ge _ _

/-- Membership in one saturation step. -/
theorem mem_satStep (E : List (String × String)) (s : List String)
    (x : String) :
    x ∈ satStep E s ↔ x ∈ s ∨ ∃ u ∈ s, (u, x) ∈ E := by
  unfold satStep
  rw [mem_foldl_addNew]
  constructor
  · rintro (h | h)
    · exact Or.inl h
    · rcases List.mem_map.mp h with ⟨e, he, rfl⟩
      rcases List.mem_filter.mp he with ⟨heE, hsrc⟩
      exact Or.inr ⟨e.1, of_decide_eq_true hsrc, heE⟩
  · rintro (h | ⟨u, hu, hux⟩)
    · exact Or.inl h
    · refine Or.inr (List.mem_map.mpr ⟨(u, x), ?_, rfl⟩)
      exact List.mem_filter.mpr ⟨hux, decide_eq_true hu⟩

theorem subset_satStep (E : List (String × String)) (s : List String) :
    ∀ x ∈ s, x ∈ satStep E s :=
  fun x hx => (mem_satStep E s x).mpr (Or.inl hx)

theorem satStep_fix_closed (E : List (String × String)) (s : List String)
    (h : satStep E s = s) :
    ∀ u v, u ∈ s → (u, v) ∈ E → v ∈ s := by
  intro u v hu huv
  have : v ∈ satStep E s := (mem_satStep E s v).mpr (Or.inr ⟨u, hu, huv⟩)
  rwa [h] at this

theorem satStep_eq_or_lt (E : List (String × String)) (s : List String) :
    satStep E s = s ∨ s.length < (satStep E s).length :=
  foldl_addNew_eq_or_lt _ s

theorem satStep_nodup (E : List (String × String)) (s : List String)
    (hs : s.Nodup) : (satStep E s).Nodup :=
  nodup_foldl_addNew _ s hs

theorem satStep_subset_pool (E : List (String × String)) (s : List String)
    (pool : List String) (hs : ∀ x ∈ s, x ∈ pool)
    (hp : ∀ e ∈ E, e.2 ∈ pool) : ∀ x ∈ satStep E s, x ∈ pool := by
  intro x hx
  rcases (mem_satStep E s x).mp hx with h | ⟨u, _, hux⟩
  · exact hs x h
  · exact hp (u, x) hux

theorem satIter_of_fix (E : List (String × String)) (s : List String)
    (h : satStep E s = s) : ∀ k, satIter E k s = s := by
  intro k
  induction k with
  | zero => rfl
  | succ k ih => simpa [satIter, h] using ih

theorem subset_satIter (E : List (String × String)) :
    ∀ (k : Nat) (s : List String), ∀ x ∈ s, x ∈ satIter E k s := by
  intro k
  induction k with
  | zero => intro s x hx; exact hx
  | succ k ih =>
    intro s x hx
    exact ih (satStep E s) x (subset_satStep E s x hx)

theorem satIter_sound (E : List (String × String)) :
    ∀ (k : Nat) (s : List String), ∀ x ∈ satIter E k s,
      ∃ u ∈ s, Reaches E u x := by
  intro k
  induction k with
  | zero => intro s x hx; exact ⟨x, hx, Reaches.refl x⟩
  | succ k ih =>
    intro s x hx
    rcases ih (satStep E s) x hx with ⟨u, hu, hux⟩
    rcases (mem_satStep E s u).mp hu with h | ⟨w, hw, hwu⟩
    · exact ⟨u, h, hux⟩
    · exact ⟨w, hw, Reaches.trans (Reaches.step (Reaches.refl w) hwu) hux⟩

theorem satIter_nodup (E : List (String × String)) :
    ∀ (k : Nat) (s : List String), s.Nodup → (satIter E k s).Nodup := by
  intro k
  induction k with
  | zero => intro s hs; exact hs
  | succ k ih => intro s hs; exact ih _ (satStep_nodup E s hs)

theorem satIter_subset_pool (E : List (String × String))
    (pool : List String) (hp : ∀ e ∈ E, e.2 ∈ pool) :
    ∀ (k : Nat) (s : List String), (∀ x ∈ s, x ∈ pool) →
      ∀ x ∈ satIter E k s, x ∈ pool := by
  intro k
  induction k with
  | zero => intro s hs x hx; exact hs x hx
  | succ k ih =>
    intro s hs x hx
    exact ih (satStep E s) (satStep_subset_pool E s pool hs hp) x hx

theorem satIter_fix_or_length (E : List (String × String)) :
    ∀ (k : Nat) (s : List String),
      satStep E (satIter E k s) = satIter E k s ∨
        s.length + k ≤ (satIter E k s).length := by
  intro k
  induction k with
  | zero => exact fun s => Or.inr (Nat.le_refl _)
  | succ k ih =>
    intro s
    rcases satStep_eq_or_lt E s with hfix | hlt
    · left
      simp only [satIter, hfix, satIter_of_fix E s hfix k, hfix]
    · rcases ih (satStep E s) with h | h
      · exact Or.inl h
      · right
        calc s.length + (k + 1) ≤ (satStep E s).length + k := by omega
          _ ≤ (satIter E k (satStep E s)).length := h

theorem nodup_length_le_pool (l pool : List String) (hn : l.Nodup)
    (hsub : ∀ x ∈ l, x ∈ pool) : l.length ≤ pool.length := by
  have h1 : l.toFinset.card = l.length := List.toFinset_card_of_nodup hn
  have h2 : l.toFinset ⊆ pool.toFinset := by
    intro x hx
    exact List.mem_toFinset.mpr (hsub x (List.mem_toFinset.mp hx))
  calc l.length = l.toFinset.card := h1.symm
    _ ≤ pool.toFinset.card := Finset.card_le_card h2
    _ ≤ pool.length := pool.toFinset_card_le

/-- The saturation run by reachList terminates in a closed set. -/
theorem reachList_closed (E : List (String × String)) (a : String) :
    ∀ u v, u ∈ reachList E a → (u, v) ∈ E → v ∈ reachList E a := by
  have hpool : ∀ e ∈ E, e.2 ∈ a :: E.map Prod.snd := by
    intro e he
    exact List.mem_cons_of_mem _ (List.mem_map.mpr ⟨e, he, rfl⟩)
  have hsub : ∀ x ∈ [a], x ∈ a :: E.map Prod.snd := by
    intro x hx
    simp only [List.mem_singleton] at hx
    exact hx ▸ List.mem_cons_self _ _
  rcases satIter_fix_or_length E (E.length + 1) [a] with hfix | hlen
  · exact satStep_fix_closed E _ hfix
  · exfalso
    have hnd : (satIter E (E.length + 1) [a]).Nodup :=
      satIter_nodup E _ _ (List.nodup_singleton a)
    have hin : ∀ x ∈ satIter E (E.length + 1) [a], x ∈ a :: E.map Prod.snd :=
      satIter_subset_pool E _ hpool _ _ hsub
    have hle := nodup_length_le_pool _ _ hnd hin
    simp only [List.length_cons, List.length_map, List.length_singleton] at hle hlen
    omega

/-- Specification of the reachability computation: reachList is precisely
the graph-theoretic reachability relation. -/
theorem mem_reachList (E : List (String × String)) (a x : String) :
    x ∈ reachList E a ↔ Reaches E a x := by
  constructor
  · intro hx
    rcases satIter_sound E _ _ x hx with ⟨u, hu, hux⟩
    simp only [List.mem_singleton] at hu
    exact hu ▸ hux
  · intro h
    induction h with
    | refl => exact subset_satIter E _ _ a (List.mem_singleton.mpr rfl)
    | step _ hbc ih => exact reachList_closed E a _ _ ih hbc

theorem getLast?_cons_of_ne_nil {c : String} {q : List String}
    (hq : q ≠ []) : (c :: q).getLast? = q.getLast? := by
  cases q with
  | nil => exact absurd rfl hq
  | cons b t => exact List.getLast?_cons_cons

theorem eq_singleton_of_head_getLast {p : List String} {c : String}
    (hh : p.head? = some c) (hl : p.getLast? = some c) (hnd : p.Nodup) :
    p = [c] := by
  rcases p with _ | ⟨a, q⟩
  · simp at hh
  · simp only [List.head?_cons, Option.some.injEq] at hh
    subst hh
    rcases q with _ | ⟨b, t⟩
    · rfl
    · exfalso
      rw [List.getLast?_cons_cons] at hl
      have hmem : a ∈ b :: t := by
        rcases List.mem_getLast?_eq_getLast (Option.mem_def.mpr hl) with
          ⟨hne, heq⟩
        rw [heq]
        exact List.getLast_mem hne
      exact (List.nodup_cons.mp hnd).1 hmem

/-- Characterization of the depth-first search: it returns exactly the
simple paths from c to y that avoid vis and fit in the fuel. -/
theorem mem_pathsFrom (nbr : String → String → Prop)
    (nbrL : String → List String)
    (hR : ∀ a b, nbr a b ↔ b ∈ nbrL a) (y : String) :
    ∀ (fuel : Nat) (c : String) (vis : List String) (p : List String),
      vis.Nodup → ¬ c ∈ vis →
      (p ∈ pathsFrom nbrL y fuel c vis ↔
        (p.head? = some c ∧ p.getLast? = some y ∧ p.Chain' nbr ∧
          (vis ++ p).Nodup ∧ p.length ≤ fuel)) := by
  intro fuel
  induction fuel with
  | zero =>
    intro c vis p _ _
    simp only [pathsFrom, List.not_mem_nil, false_iff]
    rintro ⟨hh, -, -, -, hlen⟩
    rcases p with _ | ⟨a, q⟩
    · simp at hh
    · simp at hlen
  | succ fuel ih =>
    intro c vis p hvis hcvis
    by_cases hcy : c = y
    · simp only [pathsFrom]
      rw [if_pos hcy]
      simp only [List.mem_singleton]
      constructor
      · rintro rfl
        refine ⟨by rw [hcy]; rfl, rfl, List.chain'_singleton y, ?_, by simp⟩
        simp only [List.nodup_append, List.nodup_singleton, true_and,
          List.disjoint_singleton]
        exact ⟨hvis, hcy ▸ hcvis⟩
      · rintro ⟨hh, hl, -, hnd, -⟩
        have hpn : p.Nodup := (List.nodup_append.mp hnd).2.1
        rw [← hcy] at hl
        rw [eq_singleton_of_head_getLast hh hl hpn, hcy]
    · simp only [pathsFrom]
      rw [if_neg hcy]
      have hvis' : (vis ++ [c]).Nodup := by
        simp [List.nodup_append, hvis, hcvis]
      constructor
      · intro hp
        rcases List.mem_flatMap.mp hp with ⟨n, hnfil, hpmap⟩
        rcases List.mem_map.mp hpmap with ⟨q, hq, rfl⟩
        rcases List.mem_filter.mp hnfil with ⟨hnnbr, hdec⟩
        rcases of_decide_eq_true hdec with ⟨hnvis, hnc⟩
        have hnvis' : ¬ n ∈ vis ++ [c] := by
          simp [List.mem_append, hnvis, hnc]
        rcases (ih n (vis ++ [c]) q hvis' hnvis').mp hq with
          ⟨hqh, hql, hqc, hqnd, hqlen⟩
        have hqne : q ≠ [] := by
          intro h; rw [h] at hqh; simp at hqh
        refine ⟨rfl, ?_, ?_, ?_, ?_⟩
        · rw [getLast?_cons_of_ne_nil hqne]; exact hql
        · rw [List.chain'_cons']
          refine ⟨?_, hqc⟩
          intro b hb
          rw [hqh] at hb
          simp only [Option.mem_def, Option.some.injEq] at hb
          rw [← hb]
          exact (hR c n).mpr hnnbr
        · have : vis ++ [c] ++ q = vis ++ (c :: q) := by
            rw [List.append_assoc, List.singleton_append]
          rwa [this] at hqnd
        · simpa using Nat.succ_le_succ hqlen
      · rintro ⟨hh, hl, hchain, hnd, hlen⟩
        rcases p with _ | ⟨a, q⟩
        · simp at hh
        · simp only [List.head?_cons, Option.some.injEq] at hh
          have hh' := hh.symm
          subst hh'
          have hqne : q ≠ [] := by
            rintro rfl
            simp only [List.getLast?_singleton, Option.some.injEq] at hl
            exact hcy hl
          rcases q with _ | ⟨n, t⟩
          · exact absurd rfl hqne
          · have hnd' : (vis ++ [c] ++ (n :: t)).Nodup := by
              have : vis ++ [c] ++ (n :: t) = vis ++ (c :: n :: t) := by
                rw [List.append_assoc, List.singleton_append]
              rw [this]; exact hnd
            have hdisj : (vis ++ [c]).Disjoint (n :: t) :=
              (List.nodup_append.mp hnd').2.2
            have hnvis' : ¬ n ∈ vis ++ [c] := by
              intro h
              exact hdisj h (List.mem_cons_self n t)
            have hRcn : nbr c n := by
              rw [List.chain'_cons'] at hchain
              exact hchain.1 n (by simp)
            have hql : (n :: t).getLast? = some y := by
              rw [getLast?_cons_of_ne_nil hqne] at hl; exact hl
            have hqc : (n :: t).Chain' nbr := (List.chain'_cons'.mp hchain).2
            have hqlen : (n :: t).length ≤ fuel := by
              simp only [List.length_cons] at hlen ⊢
              omega
            have hqmem : (n :: t) ∈ pathsFrom nbrL y fuel n (vis ++ [c]) :=
              (ih n (vis ++ [c]) (n :: t) hvis' hnvis').mpr
                ⟨rfl, hql, hqc, hnd', hqlen⟩
            refine List.mem_flatMap.mpr ⟨n, ?_, ?_⟩
            · refine List.mem_filter.mpr ⟨(hR c n).mp hRcn, ?_⟩
              refine decide_eq_true ?_
              constructor
              · intro h; exact hnvis' (List.mem_append_left _ h)
              · intro h; exact hnvis' (by simp [h])
            · exact List.mem_map.mpr ⟨n :: t, hqmem, rfl⟩

theorem chain'_mem_head_or_pred {R : String → String → Prop} :
    ∀ (p : List String), p.Chain' R → ∀ v ∈ p,
      p.head? = some v ∨ ∃ u, R u v := by
  intro p
  induction p with
  | nil => intro _ v hv; simp at hv
  | cons a l ih =>
    intro hch v hv
    rcases List.mem_cons.mp hv with rfl | hvl
    · exact Or.inl rfl
    · rcases l with _ | ⟨b, t⟩
      · simp at hvl
      · have hch' : (b :: t).Chain' R := (List.chain'_cons'.mp hch).2
        have hab : R a b := (List.chain'_cons'.mp hch).1 b rfl
        rcases ih hch' v hvl with hh | hex
        · simp only [List.head?_cons, Option.some.injEq] at hh
          exact Or.inr ⟨a, hh ▸ hab⟩
        · exact Or.inr hex

/-- The enumeration with fuel one more than the size of a pool containing
every target of the relation returns exactly the simple paths. -/
theorem mem_allPaths (nbr : String → String → Prop)
    (nbrL : String → List String)
    (hR : ∀ a b, nbr a b ↔ b ∈ nbrL a) (pool : List String)
    (hpool : ∀ a b, nbr a b → b ∈ pool) (x y : String) (hxy : x ≠ y)
    (p : List String) :
    p ∈ allPaths nbrL (pool.length + 1) x y ↔ SimplePath nbr x y p := by
  unfold allPaths
  rw [if_neg hxy]
  rw [mem_pathsFrom nbr nbrL hR y (pool.length + 1) x [] p List.nodup_nil
    (List.not_mem_nil x)]
  unfold SimplePath
  simp only [List.nil_append]
  constructor
  · rintro ⟨hh, hl, hc, hnd, -⟩
    exact ⟨hh, hl, hc, hnd⟩
  · rintro ⟨hh, hl, hc, hnd⟩
    refine ⟨hh, hl, hc, hnd, ?_⟩
    have hsub : ∀ v ∈ p, v ∈ x :: pool := by
      intro v hv
      rcases chain'_mem_head_or_pred p hc v hv with hhd | ⟨u, hu⟩
      · rw [hh] at hhd
        simp only [Option.some.injEq] at hhd
        rw [← hhd]
        exact List.mem_cons_self _ _
      · exact List.mem_cons_of_mem _ (hpool u v hu)
    have := nodup_length_le_pool p (x :: pool) hnd hsub
    simpa using this

theorem AdjRel.symm {g : CGM} {a b : String} (h : AdjRel g a b) :
    AdjRel g b a := h.elim Or.inr Or.inl

theorem mem_dagNodes_of_edge {g : CGM} {e : String × String}
    (he : e ∈ dagEdges g) : e.1 ∈ dagNodes g ∧ e.2 ∈ dagNodes g := by
  unfold dagNodes
  constructor
  · refine List.mem_append_right _ (List.mem_flatMap.mpr ⟨e, he, ?_⟩)
    simp
  · refine List.mem_append_right _ (List.mem_flatMap.mpr ⟨e, he, ?_⟩)
    simp

theorem adj_iff_mem_nbrU (g : CGM) (a b : String) :
    AdjRel g a b ↔ b ∈ nbrU g a := by
  constructor
  · intro h
    refine List.mem_filter.mpr ⟨?_, decide_eq_true h⟩
    rcases h with h | h
    · exact List.mem_dedup.mpr (mem_dagNodes_of_edge h).2
    · exact List.mem_dedup.mpr (mem_dagNodes_of_edge h).1
  · intro h
    exact of_decide_eq_true (List.mem_filter.mp h).2

theorem edge_iff_mem_nbrD (g : CGM) (a b : String) :
    EdgeRel g a b ↔ b ∈ nbrD g a := by
  constructor
  · intro h
    refine List.mem_filter.mpr ⟨?_, decide_eq_true h⟩
    exact List.mem_dedup.mpr (mem_dagNodes_of_edge h).2
  · intro h
    exact of_decide_eq_true (List.mem_filter.mp h).2

theorem mem_allSimplePathsU (g : CGM) (x y : String) (hxy : x ≠ y)
    (p : List String) :
    p ∈ allSimplePathsU g x y ↔ SimplePath (AdjRel g) x y p := by
  unfold allSimplePathsU graphFuel
  refine mem_allPaths (AdjRel g) (nbrU g) (adj_iff_mem_nbrU g)
    (dagNodesD g) ?_ x y hxy p
  intro a b h
  rcases h with h | h
  · exact List.mem_dedup.mpr (mem_dagNodes_of_edge h).2
  · exact List.mem_dedup.mpr (mem_dagNodes_of_edge h).1

theorem mem_allSimplePathsD (g : CGM) (x y : String) (hxy : x ≠ y)
    (p : List String) :
    p ∈ allSimplePathsD g x y ↔ SimplePath (EdgeRel g) x y p := by
  unfold allSimplePathsD graphFuel
  refine mem_allPaths (EdgeRel g) (nbrD g) (edge_iff_mem_nbrD g)
    (dagNodesD g) ?_ x y hxy p
  intro a b h
  exact List.mem_dedup.mpr (mem_dagNodes_of_edge h).2

/-- A triple with both adjacencies in the shadow graph always classifies;
the ValueError branch is unreachable. -/
theorem classifyThree_isSome {g : CGM} {a b c : String}
    (hab : AdjRel g a b) (hbc : AdjRel g b c) :
    (classifyThree g a b c).isSome := by
  unfold classifyThree
  rcases hab with h1 | h1 <;> rcases hbc with h2 | h2
  · rw [if_pos ⟨h1, h2⟩]; rfl
  · by_cases hch : (a, b) ∈ dagEdges g ∧ (b, c) ∈ dagEdges g
    · rw [if_pos hch]; rfl
    · rw [if_neg hch]
      by_cases hch2 : (c, b) ∈ dagEdges g ∧ (b, a) ∈ dagEdges g
      · rw [if_pos hch2]; rfl
      · rw [if_neg hch2, if_pos ⟨h1, h2⟩]; rfl
  · by_cases hch : (a, b) ∈ dagEdges g ∧ (b, c) ∈ dagEdges g
    · rw [if_pos hch]; rfl
    · rw [if_neg hch]
      by_cases hch2 : (c, b) ∈ dagEdges g ∧ (b, a) ∈ dagEdges g
      · rw [if_pos hch2]; rfl
      · rw [if_neg hch2]
        by_cases hch3 : (a, b) ∈ dagEdges g ∧ (c, b) ∈ dagEdges g
        · rw [if_pos hch3]; rfl
        · rw [if_neg hch3, if_pos ⟨h1, h2⟩]; rfl
  · by_cases hch : (a, b) ∈ dagEdges g ∧ (b, c) ∈ dagEdges g
    · rw [if_pos hch]; rfl
    · rw [if_neg hch, if_pos ⟨h2, h1⟩]; rfl

/-- Every consecutive triple of a chained path is doubly adjacent. -/
theorem triples_adj {R : String → String → Prop} :
    ∀ (p : List String), p.Chain' R → ∀ t ∈ triples p,
      R t.1 t.2.1 ∧ R t.2.1 t.2.2
  | [], _, t, ht => by simp [triples] at ht
  | [_], _, t, ht => by simp [triples] at ht
  | [_, _], _, t, ht => by simp [triples] at ht
  | a :: b :: c :: rest, hch, t, ht => by
    have hab : R a b := (List.chain'_cons.mp hch).1
    have hch2 : (b :: c :: rest).Chain' R := (List.chain'_cons.mp hch).2
    have hbc : R b c := (List.chain'_cons.mp hch2).1
    rcases List.mem_cons.mp ht with rfl | ht2
    · exact ⟨hab, hbc⟩
    · exact triples_adj (b :: c :: rest) hch2 t ht2

/-- Characterization of the triple loop: assuming every triple classifies,
it returns true exactly when some triple blocks, and never raises. -/
theorem scanTriples_spec (g : CGM) (zs : List String) :
    ∀ (ts : List (String × String × String)),
      (∀ t ∈ ts, (classifyThree g t.1 t.2.1 t.2.2).isSome) →
      (scanTriples g zs ts = Except.ok true ↔ ∃ t ∈ ts, TripleBlocks g zs t) ∧
        ∃ bv, scanTriples g zs ts = Except.ok bv := by
  intro ts
  induction ts with
  | nil =>
    intro _
    refine ⟨?_, false, rfl⟩
    simp [scanTriples]
  | cons t rest ih =>
    intro hcls
    obtain ⟨a, b, c⟩ := t
    have hsome : (classifyThree g a b c).isSome :=
      hcls (a, b, c) (List.mem_cons_self _ _)
    obtain ⟨tr, htr⟩ := Option.isSome_iff_exists.mp hsome
    have hrest := ih (fun t ht => hcls t (List.mem_cons_of_mem _ ht))
    have hTB : TripleBlocks g zs (a, b, c) ↔
        ((tr = Tri.chain ∨ tr = Tri.fork) ∧ b ∈ zs) ∨
          (tr = Tri.collider ∧
            ∀ d, Reaches (dagEdges g) b d → ¬ d ∈ zs) := by
      unfold TripleBlocks
      rw [htr]
      simp only [Option.some.injEq]
    have hreach : (∀ d ∈ reachList (dagEdges g) b, ¬ d ∈ zs) ↔
        ∀ d, Reaches (dagEdges g) b d → ¬ d ∈ zs := by
      constructor
      · intro h d hd
        exact h d ((mem_reachList _ _ _).mpr hd)
      · intro h d hd
        exact h d ((mem_reachList _ _ _).mp hd)
    simp only [scanTriples, htr]
    by_cases h1 : (tr = Tri.chain ∨ tr = Tri.fork) ∧ b ∈ zs
    · rw [if_pos h1]
      refine ⟨?_, true, rfl⟩
      simp only [true_iff]
      exact ⟨(a, b, c), List.mem_cons_self _ _, hTB.mpr (Or.inl h1)⟩
    · rw [if_neg h1]
      by_cases h2 : tr = Tri.collider ∧
          ∀ d ∈ reachList (dagEdges g) b, ¬ d ∈ zs
      · rw [if_pos h2]
        refine ⟨?_, true, rfl⟩
        simp only [true_iff]
        exact ⟨(a, b, c), List.mem_cons_self _ _,
          hTB.mpr (Or.inr ⟨h2.1, hreach.mp h2.2⟩)⟩
      · rw [if_neg h2]
        refine ⟨?_, hrest.2⟩
        rw [hrest.1]
        constructor
        · rintro ⟨t, ht, hb⟩
          exact ⟨t, List.mem_cons_of_mem _ ht, hb⟩
        · rintro ⟨t, ht, hb⟩
          rcases List.mem_cons.mp ht with rfl | ht2
          · exfalso
            rcases hTB.mp hb with hcase | hcase
            · exact h1 hcase
            · exact h2 ⟨hcase.1, hreach.mpr hcase.2⟩
          · exact ⟨t, ht2, hb⟩

/-- A chained path never raises in _check_d_separation, and is reported
blocked exactly when the specification says so. -/
theorem checkDSeparation_spec (g : CGM) (zs : List String)
    (p : List String) (hch : p.Chain' (AdjRel g)) :
    (checkDSeparation g p zs = Except.ok true ↔ SpecBlocked g zs p) ∧
      ∃ bv, checkDSeparation g p zs = Except.ok bv := by
  unfold checkDSeparation SpecBlocked
  by_cases hlen : p.length < 3
  · rw [if_pos hlen]
    refine ⟨?_, false, rfl⟩
    constructor
    · intro h; cases h
    · rintro ⟨h3, -⟩; omega
  · rw [if_neg hlen]
    have hcls : ∀ t ∈ triples p, (classifyThree g t.1 t.2.1 t.2.2).isSome := by
      intro t ht
      have := triples_adj p hch t ht
      exact classifyThree_isSome this.1 this.2
    have hs := scanTriples_spec g zs (triples p) hcls
    refine ⟨?_, hs.2⟩
    rw [hs.1]
    constructor
    · intro h
      exact ⟨by omega, h⟩
    · rintro ⟨-, h⟩
      exact h

/-- Characterization of the all(...) loop over a path list whose members
are all chained: true exactly when every path is blocked, never raising. -/
theorem allBlocked_spec (g : CGM) (zs : List String) :
    ∀ (ps : List (List String)), (∀ p ∈ ps, p.Chain' (AdjRel g)) →
      (allBlocked g zs ps = Except.ok true ↔
        ∀ p ∈ ps, SpecBlocked g zs p) ∧
        ∃ bv, allBlocked g zs ps = Except.ok bv := by
  intro ps
  induction ps with
  | nil =>
    intro _
    exact ⟨by simp [allBlocked], true, rfl⟩
  | cons p rest ih =>
    intro hch
    have hp := checkDSeparation_spec g zs p (hch p (List.mem_cons_self _ _))
    have hrest := ih (fun q hq => hch q (List.mem_cons_of_mem _ hq))
    obtain ⟨bv, hbv⟩ := hp.2
    simp only [allBlocked, hbv]
    cases bv
    · refine ⟨?_, false, rfl⟩
      constructor
      · intro h; cases h
      · intro h
        exfalso
        have : checkDSeparation g p zs = Except.ok true :=
          hp.1.mpr (h p (List.mem_cons_self _ _))
        rw [hbv] at this
        cases this
    · refine ⟨?_, hrest.2⟩
      rw [hrest.1]
      constructor
      · intro h q hq
        rcases List.mem_cons.mp hq with rfl | hq2
        · exact hp.1.mp hbv
        · exact h q hq2
      · intro h q hq
        exact h q (List.mem_cons_of_mem _ hq)

/-- Main characterization of is_d_separated: under its asserts and for
distinct end points, it returns ok true exactly when every simple shadow
path between them is blocked in the sense of the specification. -/
theorem isDSeparated_spec (g : CGM) (x y : String) (zs : List String)
    (hx : x ∈ obs g) (hy : y ∈ obs g) (hz : ∀ z ∈ zs, z ∈ obs g)
    (hxy : x ≠ y) :
    isDSeparated g x y zs = Except.ok true ↔
      ∀ p, SimplePath (AdjRel g) x y p → SpecBlocked g zs p := by
  unfold isDSeparated
  rw [if_pos ⟨hx, hy, hz⟩]
  have hch : ∀ p ∈ allSimplePathsU g x y, p.Chain' (AdjRel g) := by
    intro p hp
    exact ((mem_allSimplePathsU g x y hxy p).mp hp).2.2.1
  rw [(allBlocked_spec g zs (allSimplePathsU g x y) hch).1]
  constructor
  · intro h p hp
    exact h p ((mem_allSimplePathsU g x y hxy p).mpr hp)
  · intro h p hp
    exact h p ((mem_allSimplePathsU g x y hxy p).mp hp)

/-- Membership in the triple list is being an infix of length three. -/
theorem mem_triples_iff :
    ∀ (p : List String) (t : String × String × String),
      t ∈ triples p ↔ [t.1, t.2.1, t.2.2] <:+: p
  | [], t => by
    simp only [triples, List.not_mem_nil, false_iff]
    intro h
    have := h.length_le
    simp at this
  | [a], t => by
    simp only [triples, List.not_mem_nil, false_iff]
    intro h
    have := h.length_le
    simp at this
  | [a, b], t => by
    simp only [triples, List.not_mem_nil, false_iff]
    intro h
    have := h.length_le
    simp at this
  | a :: b :: c :: rest, t => by
    obtain ⟨t1, t2, t3⟩ := t
    have hrec := mem_triples_iff (b :: c :: rest) (t1, t2, t3)
    simp only [triples, List.mem_cons]
    constructor
    · rintro (heq | hmem)
      · obtain ⟨rfl, rfl, rfl⟩ : t1 = a ∧ t2 = b ∧ t3 = c := by
          simpa [Prod.ext_iff] using heq
        exact List.IsPrefix.isInfix ⟨rest, rfl⟩
      · exact List.infix_cons_iff.mpr (Or.inr (hrec.mp hmem))
    · intro h
      rcases List.infix_cons_iff.mp h with hpre | hinf
      · left
        rcases List.cons_prefix_cons.mp hpre with ⟨rfl, h2⟩
        rcases List.cons_prefix_cons.mp h2 with ⟨rfl, h3⟩
        rcases List.cons_prefix_cons.mp h3 with ⟨rfl, -⟩
        rfl
      · exact Or.inr (hrec.mpr hinf)

/-- The classifier is symmetric in reading the triple backwards. -/
theorem classifyThree_comm (g : CGM) (a b c : String) :
    classifyThree g a b c = classifyThree g c b a := by
  unfold classifyThree
  by_cases p1 : (a, b) ∈ dagEdges g <;>
    by_cases p2 : (b, a) ∈ dagEdges g <;>
      by_cases p3 : (b, c) ∈ dagEdges g <;>
        by_cases p4 : (c, b) ∈ dagEdges g <;>
          simp [p1, p2, p3, p4]

/-- Blocking of a triple is symmetric in reading it backwards. -/
theorem tripleBlocks_comm (g : CGM) (zs : List String) (a b c : String) :
    TripleBlocks g zs (a, b, c) ↔ TripleBlocks g zs (c, b, a) := by
  unfold TripleBlocks
  rw [classifyThree_comm g a b c]

/-- A triple of the reversed path is the swapped triple of the path. -/
theorem mem_triples_reverse (p : List String)
    (t : String × String × String) :
    t ∈ triples p.reverse ↔ (t.2.2, t.2.1, t.1) ∈ triples p := by
  rw [mem_triples_iff, mem_triples_iff]
  constructor
  · intro h
    have h2 : [t.2.2, t.2.1, t.1].reverse <:+: p.reverse := by
      simpa using h
    exact List.reverse_infix.mp h2
  · intro h
    have h2 : [t.2.2, t.2.1, t.1].reverse <:+: p.reverse :=
      List.reverse_infix.mpr h
    simpa using h2

/-- Spec blocking is invariant under path reversal. -/
theorem specBlocked_reverse (g : CGM) (zs : List String) (p : List String) :
    SpecBlocked g zs p.reverse ↔ SpecBlocked g zs p := by
  unfold SpecBlocked
  rw [List.length_reverse]
  constructor
  · rintro ⟨h3, t, ht, hb⟩
    refine ⟨h3, (t.2.2, t.2.1, t.1), (mem_triples_reverse p t).mp ht, ?_⟩
    obtain ⟨t1, t2, t3⟩ := t
    exact (tripleBlocks_comm g zs t1 t2 t3).mp hb
  · rintro ⟨h3, t, ht, hb⟩
    refine ⟨h3, (t.2.2, t.2.1, t.1), ?_, ?_⟩
    · rw [mem_triples_reverse]
      exact ht
    · obtain ⟨t1, t2, t3⟩ := t
      exact (tripleBlocks_comm g zs t1 t2 t3).mp hb

/-- A simple path reverses to a simple path with the end points swapped,
for the symmetric shadow adjacency. -/
theorem simplePath_reverse (g : CGM) (x y : String) (p : List String)
    (h : SimplePath (AdjRel g) x y p) :
    SimplePath (AdjRel g) y x p.reverse := by
  obtain ⟨hh, hl, hc, hnd⟩ := h
  refine ⟨?_, ?_, ?_, ?_⟩
  · rw [List.head?_reverse]
    exact hl
  · rw [List.getLast?_reverse]
    exact hh
  · rw [List.chain'_reverse]
    exact hc.imp (fun a b hab => AdjRel.symm hab)
  · exact List.nodup_reverse.mpr hnd

/-- Every enumerated shadow path is a chain of adjacencies. -/
theorem allSimplePathsU_chain (g : CGM) (x y : String) :
    ∀ p ∈ allSimplePathsU g x y, p.Chain' (AdjRel g) := by
  intro p hp
  by_cases hxy : x = y
  · unfold allSimplePathsU allPaths at hp
    rw [if_pos hxy] at hp
    simp at hp
  · exact ((mem_allSimplePathsU g x y hxy p).mp hp).2.2.1

theorem isBackdoorPathB_iff (g : CGM) (x : String) (p : List String) :
    isBackdoorPathB g x p = true ↔
      3 ≤ p.length ∧ ∃ b, p.tail.head? = some b ∧ (b, x) ∈ dagEdges g := by
  match p with
  | [] => simp [isBackdoorPathB]
  | [a] => simp [isBackdoorPathB]
  | [a, b] => simp [isBackdoorPathB]
  | a :: b :: c :: rest =>
    simp only [isBackdoorPathB, decide_eq_true_eq, List.length_cons,
      List.tail_cons, List.head?_cons, Option.some.injEq]
    constructor
    · intro h
      exact ⟨by omega, b, rfl, h⟩
    · rintro ⟨-, b', hb', h⟩
      exact hb' ▸ h

theorem mem_backdoorPaths (g : CGM) (x y : String) (hxy : x ≠ y)
    (p : List String) :
    p ∈ backdoorPaths g x y ↔ BackdoorPath g x y p := by
  unfold backdoorPaths BackdoorPath
  rw [List.mem_filter, mem_allSimplePathsU g x y hxy, isBackdoorPathB_iff]

theorem backdoorPaths_chain (g : CGM) (x y : String) :
    ∀ p ∈ backdoorPaths g x y, p.Chain' (AdjRel g) := by
  intro p hp
  exact allSimplePathsU_chain g x y p (List.mem_filter.mp hp).1

/-- With equal end points the enumeration is empty. -/
theorem backdoorPaths_self_nil (g : CGM) (x : String) :
    backdoorPaths g x x = [] := by
  simp [backdoorPaths, allSimplePathsU, allPaths]

/-- For equal end points there is no backdoor path at all. -/
theorem backdoorPath_self (g : CGM) (x : String) (p : List String)
    (h : BackdoorPath g x x p) : False := by
  obtain ⟨⟨hh, hl, -, hnd⟩, hlen, -⟩ := h
  have := eq_singleton_of_head_getLast hh hl hnd
  rw [this] at hlen
  simp at hlen

/-- The strict descendant test of the code agrees with reachability. -/
theorem mem_descendants (g : CGM) (x d : String) :
    d ∈ descendants g x ↔ Reaches (dagEdges g) x d ∧ d ≠ x := by
  unfold descendants
  rw [List.mem_filter, mem_reachList, decide_eq_true_eq]

theorem filterUnblocked_spec (g : CGM) (zs : List String) :
    ∀ (ps : List (List String)), (∀ p ∈ ps, p.Chain' (AdjRel g)) →
      ∃ L, filterUnblocked g zs ps = Except.ok L ∧
        (L = [] ↔ ∀ p ∈ ps, SpecBlocked g zs p) := by
  intro ps
  induction ps with
  | nil =>
    intro _
    exact ⟨[], rfl, by simp⟩
  | cons p rest ih =>
    intro hch
    have hp := checkDSeparation_spec g zs p (hch p (List.mem_cons_self _ _))
    obtain ⟨bv, hbv⟩ := hp.2
    obtain ⟨L, hok, hiff⟩ := ih (fun q hq => hch q (List.mem_cons_of_mem _ hq))
    cases bv
    · refine ⟨p :: L, ?_, ?_⟩
      · simp only [filterUnblocked, hbv, hok]
        rfl
      · constructor
        · intro h; cases h
        · intro h
          exfalso
          have : checkDSeparation g p zs = Except.ok true :=
            hp.1.mpr (h p (List.mem_cons_self _ _))
          rw [hbv] at this
          cases this
    · refine ⟨L, ?_, ?_⟩
      · simp only [filterUnblocked, hbv, hok]
        rfl
      · rw [hiff]
        constructor
        · intro h q hq
          rcases List.mem_cons.mp hq with rfl | hq2
          · exact hp.1.mp hbv
          · exact h q hq2
        · intro h q hq
          exact h q (List.mem_cons_of_mem _ hq)

theorem anyDescendant_iff (g : CGM) (x : String) (z : List String) :
    anyDescendant g x z = true ↔
      ∃ zz ∈ z, Reaches (dagEdges g) x zz ∧ zz ≠ x := by
  unfold anyDescendant
  rw [List.any_eq_true]
  constructor
  · rintro ⟨zz, hzz, hd⟩
    exact ⟨zz, hzz, (mem_descendants g x zz).mp (of_decide_eq_true hd)⟩
  · rintro ⟨zz, hzz, hd⟩
    exact ⟨zz, hzz, decide_eq_true ((mem_descendants g x zz).mpr hd)⟩

/-- Under its asserts, is_valid_backdoor_adjustment_set never raises. -/
theorem isValidBackdoor_isOk (g : CGM) (x y : String) (z : List String)
    (hx : x ∈ obs g) (hy : y ∈ obs g) (hxz : ¬ x ∈ z) (hyz : ¬ y ∈ z) :
    ∃ b, isValidBackdoorAdjustmentSet g x y z = Except.ok b := by
  unfold isValidBackdoorAdjustmentSet
  rw [if_pos ⟨hx, hy, hxz, hyz⟩]
  by_cases hd : anyDescendant g x z
  · rw [if_pos hd]
    exact ⟨false, rfl⟩
  · rw [if_neg hd]
    obtain ⟨L, hok, -⟩ :=
      filterUnblocked_spec g z (backdoorPaths g x y) (backdoorPaths_chain g x y)
    rw [hok]
    exact ⟨L.isEmpty, rfl⟩

/-- Under its asserts, is_valid_backdoor_adjustment_set returns true
exactly when the backdoor criterion of the specification holds. -/
theorem backdoorValid_iff (g : CGM) (x y : String) (z : List String)
    (hx : x ∈ obs g) (hy : y ∈ obs g) (hxz : ¬ x ∈ z) (hyz : ¬ y ∈ z) :
    isValidBackdoorAdjustmentSet g x y z = Except.ok true ↔
      BackdoorValidSpec g x y z := by
  unfold isValidBackdoorAdjustmentSet BackdoorValidSpec
  rw [if_pos ⟨hx, hy, hxz, hyz⟩]
  by_cases hd : anyDescendant g x z
  · rw [if_pos hd]
    constructor
    · intro h; cases h
    · rintro ⟨ha, -⟩
      exfalso
      obtain ⟨zz, hzz, hr⟩ := (anyDescendant_iff g x z).mp hd
      exact ha zz hzz hr
  · rw [if_neg hd]
    obtain ⟨L, hok, hiff⟩ :=
      filterUnblocked_spec g z (backdoorPaths g x y) (backdoorPaths_chain g x y)
    rw [hok]
    have hnd : ∀ zz ∈ z, ¬ (Reaches (dagEdges g) x zz ∧ zz ≠ x) := by
      intro zz hzz hr
      exact hd ((anyDescendant_iff g x z).mpr ⟨zz, hzz, hr⟩)
    constructor
    · intro h
      refine ⟨hnd, ?_⟩
      have hLnil : L = [] := by
        have : L.isEmpty = true := by
          injection h with h2
        exact List.isEmpty_iff.mp this
      by_cases hxy : x = y
      · intro p hp
        exact absurd (hxy ▸ hp) (backdoorPath_self g x p)
      · intro p hp
        exact (hiff.mp hLnil) p ((mem_backdoorPaths g x y hxy p).mpr hp)
    · rintro ⟨-, hb⟩
      have hLnil : L = [] := by
        rw [hiff]
        by_cases hxy : x = y
        · intro p hp
          exfalso
          rw [← hxy] at hp
          rw [backdoorPaths_self_nil] at hp
          simp at hp
        · intro p hp
          exact hb p ((mem_backdoorPaths g x y hxy p).mp hp)
      rw [hLnil]
      rfl

/-- Blocking only looks at membership in the conditioning set. -/
theorem tripleBlocks_congr_mem (g : CGM) {z z' : List String}
    (h : ∀ a, a ∈ z ↔ a ∈ z') (t : String × String × String)
    (hb : TripleBlocks g z t) : TripleBlocks g z' t := by
  unfold TripleBlocks at hb ⊢
  rcases hb with ⟨hc, hm⟩ | ⟨hc, hall⟩
  · exact Or.inl ⟨hc, (h _).mp hm⟩
  · exact Or.inr ⟨hc, fun d hd hm => hall d hd ((h d).mpr hm)⟩

theorem specBlocked_congr_mem (g : CGM) {z z' : List String}
    (h : ∀ a, a ∈ z ↔ a ∈ z') (p : List String)
    (hb : SpecBlocked g z p) : SpecBlocked g z' p := by
  obtain ⟨h3, t, ht, htb⟩ := hb
  exact ⟨h3, t, ht, tripleBlocks_congr_mem g h t htb⟩

theorem backdoorValidSpec_congr_mem (g : CGM) (x y : String)
    {z z' : List String} (h : ∀ a, a ∈ z ↔ a ∈ z')
    (hb : BackdoorValidSpec g x y z) : BackdoorValidSpec g x y z' := by
  obtain ⟨ha, hbl⟩ := hb
  constructor
  · intro zz hzz
    exact ha zz ((h zz).mpr hzz)
  · intro p hp
    exact specBlocked_congr_mem g h p (hbl p hp)

/-- Realizing a finite set of elements of a list as one of its sublists. -/
theorem exists_sublist_toFinset (l : List String) (S : Finset String) :
    (∃ s ∈ l.sublists, s.toFinset = S) ↔ ∀ v ∈ S, v ∈ l := by
  constructor
  · rintro ⟨s, hs, rfl⟩ v hv
    exact (List.mem_sublists.mp hs).subset (List.mem_toFinset.mp hv)
  · intro h
    refine ⟨l.filter (fun v => decide (v ∈ S)), ?_, ?_⟩
    · exact List.mem_sublists.mpr (List.filter_sublist l)
    · ext v
      simp only [List.mem_toFinset, List.mem_filter, decide_eq_true_eq]
      constructor
      · rintro ⟨-, hv⟩
        exact hv
      · intro hv
        exact ⟨h v hv, hv⟩

theorem mem_candidatePool (g : CGM) (x y v : String) :
    v ∈ candidatePool g x y ↔
      v ∈ obs g ∧ v ≠ x ∧ v ≠ y ∧
        ¬ (Reaches (dagEdges g) x v ∧ v ≠ x) := by
  unfold candidatePool
  rw [List.mem_filter, List.mem_dedup, decide_eq_true_eq, mem_descendants]

theorem filterValidSets_spec (g : CGM) (x y : String) :
    ∀ (ss : List (List String)),
      (∀ s ∈ ss, ∃ b, isValidBackdoorAdjustmentSet g x y s = Except.ok b) →
      ∃ L, filterValidSets g x y ss = Except.ok L ∧
        ∀ s, (s ∈ L ↔ s ∈ ss ∧
          isValidBackdoorAdjustmentSet g x y s = Except.ok true) := by
  intro ss
  induction ss with
  | nil =>
    intro _
    exact ⟨[], rfl, by simp⟩
  | cons s ss ih =>
    intro h
    obtain ⟨b, hb⟩ := h s (List.mem_cons_self _ _)
    obtain ⟨L, hok, hiff⟩ := ih (fun t ht => h t (List.mem_cons_of_mem _ ht))
    cases b
    · refine ⟨L, ?_, ?_⟩
      · simp only [filterValidSets, hb, hok]
        rfl
      · intro t
        rw [hiff]
        constructor
        · rintro ⟨ht, hv⟩
          exact ⟨List.mem_cons_of_mem _ ht, hv⟩
        · rintro ⟨ht, hv⟩
          rcases List.mem_cons.mp ht with rfl | ht2
          · rw [hv] at hb
            cases hb
          · exact ⟨ht2, hv⟩
    · refine ⟨s :: L, ?_, ?_⟩
      · simp only [filterValidSets, hb, hok]
        rfl
      · intro t
        simp only [List.mem_cons, hiff]
        constructor
        · rintro (rfl | ⟨ht, hv⟩)
          · exact ⟨Or.inl rfl, hb⟩
          · exact ⟨Or.inr ht, hv⟩
        · rintro ⟨(rfl | ht), hv⟩
          · exact Or.inl rfl
          · exact Or.inr ⟨ht, hv⟩

/-- Characterization of the enumeration: it succeeds and its members,
viewed as sets, are exactly the subsets of the candidate pool passing the
backdoor criterion. -/
theorem getAllBackdoor_spec (g : CGM) (x y : String)
    (hx : x ∈ obs g) (hy : y ∈ obs g) :
    ∃ L, getAllBackdoorAdjustmentSets g x y = Except.ok L ∧
      ∀ S : Finset String,
        ((∃ s ∈ L, s.toFinset = S) ↔
          ((∀ v ∈ S, v ∈ obs g ∧ v ≠ x ∧ v ≠ y ∧
              ¬ (Reaches (dagEdges g) x v ∧ v ≠ x)) ∧
            BackdoorValidSpec g x y S.toList)) := by
  have hassert : ∀ s ∈ (candidatePool g x y).sublists,
      x ∈ obs g ∧ y ∈ obs g ∧ ¬ x ∈ s ∧ ¬ y ∈ s := by
    intro s hs
    have hsub := (List.mem_sublists.mp hs).subset
    refine ⟨hx, hy, ?_, ?_⟩
    · intro hxs
      exact ((mem_candidatePool g x y x).mp (hsub hxs)).2.1 rfl
    · intro hys
      exact ((mem_candidatePool g x y y).mp (hsub hys)).2.2.1 rfl
  obtain ⟨L, hok, hiff⟩ := filterValidSets_spec g x y
    (candidatePool g x y).sublists
    (fun s hs => isValidBackdoor_isOk g x y s (hassert s hs).1
      (hassert s hs).2.1 (hassert s hs).2.2.1 (hassert s hs).2.2.2)
  refine ⟨L, ?_, ?_⟩
  · unfold getAllBackdoorAdjustmentSets
    rw [if_pos ⟨hx, hy⟩]
    exact hok
  · intro S
    constructor
    · rintro ⟨s, hsL, rfl⟩
      obtain ⟨hs, hvalid⟩ := (hiff s).mp hsL
      have hsub := (List.mem_sublists.mp hs).subset
      constructor
      · intro v hv
        have := (mem_candidatePool g x y v).mp (hsub (List.mem_toFinset.mp hv))
        exact ⟨this.1, this.2.1, this.2.2.1, this.2.2.2⟩
      · have hspec := (backdoorValid_iff g x y s (hassert s hs).1
          (hassert s hs).2.1 (hassert s hs).2.2.1
          (hassert s hs).2.2.2).mp hvalid
        refine backdoorValidSpec_congr_mem g x y ?_ hspec
        intro a
        rw [Finset.mem_toList, List.mem_toFinset]
    · rintro ⟨hpool, hspec⟩
      have hmem : ∀ v ∈ S, v ∈ candidatePool g x y := by
        intro v hv
        obtain ⟨h1, h2, h3, h4⟩ := hpool v hv
        exact (mem_candidatePool g x y v).mpr ⟨h1, h2, h3, h4⟩
      obtain ⟨s, hs, hsS⟩ :=
        (exists_sublist_toFinset (candidatePool g x y) S).mpr hmem
      refine ⟨s, ?_, hsS⟩
      rw [hiff s]
      refine ⟨hs, ?_⟩
      rw [backdoorValid_iff g x y s (hassert s hs).1 (hassert s hs).2.1
        (hassert s hs).2.2.1 (hassert s hs).2.2.2]
      refine backdoorValidSpec_congr_mem g x y ?_ hspec
      intro a
      rw [Finset.mem_toList, ← hsS, List.mem_toFinset]

theorem unblockedDirected_eq_nil_iff (g : CGM) (x y : String)
    (z : List String) (hxy : x ≠ y) :
    unblockedDirected g x y z = [] ↔
      ∀ p, SimplePath (EdgeRel g) x y p → ∃ zz ∈ z, zz ∈ p := by
  unfold unblockedDirected
  rw [List.filter_eq_nil_iff]
  constructor
  · intro h p hp
    have := h p ((mem_allSimplePathsD g x y hxy p).mpr hp)
    simpa using this
  · intro h p hp
    have := h p ((mem_allSimplePathsD g x y hxy p).mp hp)
    simpa using this

theorem scanZBackdoors_spec (g : CGM) (x : String) (z : List String) :
    ∀ (zs : List String),
      ∃ L, scanZBackdoors g x z zs = Except.ok L ∧
        (L = [] ↔ ∀ zz ∈ zs, ∀ p ∈ backdoorPaths g x zz,
          SpecBlocked g (z.filter (fun w => decide (¬ w = zz))) p) := by
  intro zs
  induction zs with
  | nil => exact ⟨[], rfl, by simp⟩
  | cons zz rest ih =>
    obtain ⟨l1, hok1, hiff1⟩ := filterUnblocked_spec g
      (z.filter (fun w => decide (¬ w = zz))) (backdoorPaths g x zz)
      (backdoorPaths_chain g x zz)
    obtain ⟨l2, hok2, hiff2⟩ := ih
    refine ⟨l1 ++ l2, ?_, ?_⟩
    · simp only [scanZBackdoors, hok1, hok2]
    · rw [List.append_eq_nil, hiff1, hiff2]
      constructor
      · rintro ⟨h1, h2⟩ w hw p hp
        rcases List.mem_cons.mp hw with rfl | hw2
        · exact h1 p hp
        · exact h2 w hw2 p hp
      · intro h
        refine ⟨fun p hp => h zz (List.mem_cons_self _ _) p hp, ?_⟩
        intro w hw p hp
        exact h w (List.mem_cons_of_mem _ hw) p hp

theorem allBackdoorOnZ_spec (g : CGM) (y x : String) :
    ∀ (zs : List String),
      (∀ zz ∈ zs, ∃ b,
        isValidBackdoorAdjustmentSet g zz y [x] = Except.ok b) →
      (allBackdoorOnZ g y x zs = Except.ok true ↔
        ∀ zz ∈ zs, isValidBackdoorAdjustmentSet g zz y [x] = Except.ok true) ∧
        ∃ bv, allBackdoorOnZ g y x zs = Except.ok bv := by
  intro zs
  induction zs with
  | nil =>
    intro _
    exact ⟨by simp [allBackdoorOnZ], true, rfl⟩
  | cons zz rest ih =>
    intro h
    obtain ⟨b, hb⟩ := h zz (List.mem_cons_self _ _)
    have hrest := ih (fun w hw => h w (List.mem_cons_of_mem _ hw))
    cases b
    · refine ⟨?_, false, by simp only [allBackdoorOnZ, hb]⟩
      simp only [allBackdoorOnZ, hb]
      constructor
      · intro hfalse; cases hfalse
      · intro hall
        exfalso
        have := hall zz (List.mem_cons_self _ _)
        rw [this] at hb
        cases hb
    · refine ⟨?_, ?_⟩
      · simp only [allBackdoorOnZ, hb]
        rw [hrest.1]
        constructor
        · intro hall w hw
          rcases List.mem_cons.mp hw with rfl | hw2
          · exact hb
          · exact hall w hw2
        · intro hall w hw
          exact hall w (List.mem_cons_of_mem _ hw)
      · obtain ⟨bv, hbv⟩ := hrest.2
        refine ⟨bv, ?_⟩
        simp only [allBackdoorOnZ, hb]
        exact hbv

/-- Under the preconditions of the claim, is_valid_frontdoor_adjustment_set
returns true exactly when the three frontdoor clauses hold. -/
theorem frontdoorValid_iff (g : CGM) (x y : String) (z : List String)
    (hy : y ∈ obs g) (hz : ∀ zz ∈ z, zz ∈ obs g) (hxz : ¬ x ∈ z)
    (hxy : x ≠ y) :
    isValidFrontdoorAdjustmentSet g x y z = Except.ok true ↔
      FrontdoorValidSpec g x y z := by
  have hzx : ∀ zz ∈ z, zz ≠ x := by
    intro zz hzz h
    exact hxz (h ▸ hzz)
  have hassert : ∀ zz ∈ z,
      zz ∈ obs g ∧ y ∈ obs g ∧ ¬ zz ∈ [x] ∧ ¬ y ∈ [x] := by
    intro zz hzz
    refine ⟨hz zz hzz, hy, ?_, ?_⟩
    · simp only [List.mem_singleton]
      exact hzx zz hzz
    · simp only [List.mem_singleton]
      intro h
      exact hxy h.symm
  unfold isValidFrontdoorAdjustmentSet FrontdoorValidSpec
  by_cases h1 : unblockedDirected g x y z = []
  · rw [if_neg (not_not_intro h1)]
    obtain ⟨L2, hok2, hiff2⟩ := scanZBackdoors_spec g x z z
    rw [hok2]
    change (if ¬ L2 = [] then Except.ok false
      else allBackdoorOnZ g y x z) = Except.ok true ↔ _
    have hclauseB : L2 = [] ↔
        ∀ zz ∈ z, ∀ p, BackdoorPath g x zz p →
          SpecBlocked g (z.filter (fun w => decide (¬ w = zz))) p := by
      rw [hiff2]
      constructor
      · intro h zz hzz p hp
        exact h zz hzz p
          ((mem_backdoorPaths g x zz (Ne.symm (hzx zz hzz)) p).mpr hp)
      · intro h zz hzz p hp
        exact h zz hzz p
          ((mem_backdoorPaths g x zz (Ne.symm (hzx zz hzz)) p).mp hp)
    by_cases h2 : L2 = []
    · rw [if_neg (not_not_intro h2)]
      have hstep3 := allBackdoorOnZ_spec g y x z
        (fun zz hzz => isValidBackdoor_isOk g zz y [x]
          (hassert zz hzz).1 (hassert zz hzz).2.1
          (hassert zz hzz).2.2.1 (hassert zz hzz).2.2.2)
      rw [hstep3.1]
      constructor
      · intro hc
        refine ⟨(unblockedDirected_eq_nil_iff g x y z hxy).mp h1,
          hclauseB.mp h2, ?_⟩
        intro zz hzz
        exact (backdoorValid_iff g zz y [x] (hassert zz hzz).1
          (hassert zz hzz).2.1 (hassert zz hzz).2.2.1
          (hassert zz hzz).2.2.2).mp (hc zz hzz)
      · rintro ⟨-, -, hc⟩ zz hzz
        exact (backdoorValid_iff g zz y [x] (hassert zz hzz).1
          (hassert zz hzz).2.1 (hassert zz hzz).2.2.1
          (hassert zz hzz).2.2.2).mpr (hc zz hzz)
    · rw [if_pos h2]
      constructor
      · intro h; cases h
      · rintro ⟨-, hb, -⟩
        exact absurd (hclauseB.mpr hb) h2
  · rw [if_pos h1]
    constructor
    · intro h; cases h
    · rintro ⟨ha, -, -⟩
      exact absurd ((unblockedDirected_eq_nil_iff g x y z hxy).mpr ha) h1

/-- Inversion of the do operator: success means the node was observed,
the result is the rebuilt record, and the constructor checks passed. -/
theorem doOp_ok_iff (g : CGM) (n : String) (g' : CGM) :
    doOp g n = Except.ok g' ↔
      n ∈ obs g ∧
        g' = (⟨obs g, doEdges g n, doLatent g n, doSets g n⟩ : CGM) ∧
        validCGM g' := by
  unfold doOp mkCGM
  by_cases hn : n ∈ obs g
  · rw [if_pos hn]
    by_cases hv :
        validCGM (⟨obs g, doEdges g n, doLatent g n, doSets g n⟩ : CGM)
    · rw [if_pos hv]
      constructor
      · intro h
        injection h with h2
        exact ⟨hn, h2.symm, h2 ▸ hv⟩
      · rintro ⟨-, rfl, -⟩
        rfl
    · rw [if_neg hv]
      constructor
      · intro h; cases h
      · rintro ⟨-, rfl, hv2⟩
        exact absurd hv2 hv
  · rw [if_neg hn]
    constructor
    · intro h; cases h
    · rintro ⟨hn2, -, -⟩
      exact absurd hn2 hn

theorem mem_doSets_self (g : CGM) (n : String) : n ∈ doSets g n := by
  unfold doSets
  by_cases h : n ∈ g.set_nodes
  · rw [if_pos h]; exact h
  · rw [if_neg h]; exact List.mem_cons_self _ _

theorem mem_doSets (g : CGM) (n s : String) :
    s ∈ doSets g n ↔ s ∈ g.set_nodes ∨ s = n := by
  unfold doSets
  by_cases h : n ∈ g.set_nodes
  · rw [if_pos h]
    constructor
    · exact Or.inl
    · rintro (hs | rfl)
      · exact hs
      · exact h
  · rw [if_neg h]
    simp only [List.mem_cons]
    tauto

theorem synthEdges_snd {g : CGM} {e : String × String}
    (he : e ∈ synthEdges g) :
    ∃ q ∈ latentL g, e.2 = q.1 ∨ e.2 = q.2 := by
  unfold synthEdges at he
  rcases List.mem_flatMap.mp he with ⟨pr, hpr, hpe⟩
  have hq : pr.2 ∈ latentL g := (List.of_mem_zip hpr).2
  simp only [List.mem_cons, List.not_mem_nil, or_false] at hpe
  rcases hpe with rfl | rfl
  · exact ⟨pr.2, hq, Or.inl rfl⟩
  · exact ⟨pr.2, hq, Or.inr rfl⟩

theorem doLatent_nodup (g : CGM) (n : String) : (doLatent g n).Nodup := by
  unfold doLatent latentL
  exact (List.nodup_dedup _).filter _

theorem latentL_doLatent (g : CGM) (n : String) (ns : List String)
    (es : List (String × String)) (ss : List String) :
    latentL (⟨ns, es, doLatent g n, ss⟩ : CGM) = doLatent g n := by
  unfold latentL
  exact List.dedup_eq_self.mpr (doLatent_nodup g n)

/-- Structure of a successful intervention: no dag edge points into the
node, the node is set, and the edge, latent and set components are the
announced filters of the original store. -/
theorem doOp_components (g : CGM) (n : String) (g' : CGM)
    (h : doOp g n = Except.ok g') :
    (∀ u : String, ¬ (u, n) ∈ dagEdges g') ∧
    n ∈ g'.set_nodes ∧
    (∀ e : String × String, e ∈ g'.edges ↔
      e ∈ dagEdges g ∧ ¬ e.2 = n ∧ e.1 ∈ obs g ∧ e.2 ∈ obs g) ∧
    (∀ e : String × String, e ∈ latentL g' ↔
      e ∈ latentL g ∧ ¬ e.1 ∈ g'.set_nodes ∧ ¬ e.2 ∈ g'.set_nodes) ∧
    (∀ s, s ∈ g'.set_nodes ↔ s ∈ g.set_nodes ∨ s = n) ∧
    (∀ v, v ∈ obs g' ↔ v ∈ obs g) := by
  obtain ⟨hn, rfl, hv⟩ := (doOp_ok_iff g n g').mp h
  refine ⟨?_, mem_doSets_self g n, ?_, ?_, fun s => mem_doSets g n s, fun v => Iff.rfl⟩
  · intro u hu
    unfold dagEdges at hu
    rcases List.mem_append.mp hu with hu1 | hu2
    · have hu1' : (u, n) ∈ (dagEdges g).filter
          (fun e => decide (¬ e.2 = n ∧ e.1 ∈ obs g ∧ e.2 ∈ obs g)) := hu1
      have := of_decide_eq_true (List.mem_filter.mp hu1').2
      exact this.1 rfl
    · obtain ⟨q, hq, hsnd⟩ := synthEdges_snd hu2
      rw [latentL_doLatent] at hq
      have hq' : q ∈ (latentL g).filter
          (fun e => decide (¬ e.1 ∈ doSets g n ∧ ¬ e.2 ∈ doSets g n)) := hq
      have := of_decide_eq_true (List.mem_filter.mp hq').2
      rcases hsnd with h2 | h2
      · exact this.1 (by rw [← h2]; exact mem_doSets_self g n)
      · exact this.2 (by rw [← h2]; exact mem_doSets_self g n)
  · intro e
    show e ∈ doEdges g n ↔ _
    unfold doEdges
    rw [List.mem_filter, decide_eq_true_eq]
  · intro e
    rw [latentL_doLatent]
    show e ∈ doLatent g n ↔ _
    unfold doLatent
    rw [List.mem_filter, decide_eq_true_eq]

theorem acyclicB_congr {E E' : List (String × String)}
    (h : ∀ e, e ∈ E ↔ e ∈ E') (ha : acyclicB E) : acyclicB E' := by
  intro e he hmem
  have hr : Reaches E' e.2 e.1 := (mem_reachList _ _ _).mp hmem
  have hr2 : Reaches E e.2 e.1 := hr.congr_mem (fun x => (h x).symm)
  exact ha e ((h e).mpr he) ((mem_reachList _ _ _).mpr hr2)

theorem synthEdges_congr {g g' : CGM}
    (h : g.latent_edges = g'.latent_edges) : synthEdges g = synthEdges g' := by
  unfold synthEdges unobservedNames latentL
  rw [h]

theorem dagNodes_mem_congr {g g' : CGM} (hn : g.nodes = g'.nodes)
    (he : ∀ e, e ∈ dagEdges g ↔ e ∈ dagEdges g') :
    ∀ v, v ∈ dagNodes g ↔ v ∈ dagNodes g' := by
  intro v
  unfold dagNodes
  rw [hn]
  simp only [List.mem_append, List.mem_flatMap]
  constructor
  · rintro (h1 | ⟨e, he2, hv⟩)
    · exact Or.inl h1
    · exact Or.inr ⟨e, (he e).mp he2, hv⟩
  · rintro (h1 | ⟨e, he2, hv⟩)
    · exact Or.inl h1
    · exact Or.inr ⟨e, (he e).mpr he2, hv⟩

theorem setNodesOk_congr {g g' : CGM}
    (hs : ∀ s, s ∈ g'.set_nodes ↔ s ∈ g.set_nodes)
    (hn : ∀ v, v ∈ dagNodes g' ↔ v ∈ dagNodes g)
    (he : ∀ e, e ∈ dagEdges g' ↔ e ∈ dagEdges g)
    (hok : setNodesOk g) : setNodesOk g' := by
  intro s hs'
  obtain ⟨h1, h2⟩ := hok s ((hs s).mp hs')
  refine ⟨(hn s).mpr h1, ?_⟩
  intro u hu hus hmem
  have hr : Reaches (dagEdges g') u s := (mem_reachList _ _ _).mp hmem
  have hr2 : Reaches (dagEdges g) u s := hr.congr_mem he
  exact h2 u ((hn u).mp hu) hus ((mem_reachList _ _ _).mpr hr2)

/-- Idempotence of the do operator: a second intervention on the same node
succeeds and leaves every component unchanged up to membership. -/
theorem doOp_idem (g : CGM) (n : String) (g1 : CGM)
    (h : doOp g n = Except.ok g1) :
    ∃ g2 : CGM, doOp g1 n = Except.ok g2 ∧
      g2.nodes = g1.nodes ∧
      g2.set_nodes = g1.set_nodes ∧
      g2.latent_edges = g1.latent_edges ∧
      (∀ e : String × String, e ∈ dagEdges g2 ↔ e ∈ dagEdges g1) := by
  obtain ⟨hn, hg1, hv1⟩ := (doOp_ok_iff g n g1).mp h
  have hnodes1 : g1.nodes = obs g := by rw [hg1]
  have hedges1 : g1.edges = doEdges g n := by rw [hg1]
  have hlatent1 : g1.latent_edges = doLatent g n := by rw [hg1]
  have hset1 : g1.set_nodes = doSets g n := by rw [hg1]
  have hobs1 : obs g1 = obs g := hnodes1
  have hn1 : n ∈ g1.set_nodes := hset1 ▸ mem_doSets_self g n
  have hds : doSets g1 n = g1.set_nodes := by
    unfold doSets
    rw [if_pos hn1]
  have hlatL1 : latentL g1 = doLatent g n := by
    unfold latentL
    rw [hlatent1]
    exact List.dedup_eq_self.mpr (doLatent_nodup g n)
  have hdl : doLatent g1 n = doLatent g n := by
    unfold doLatent
    rw [hds, hlatL1, hset1]
    apply List.filter_eq_self.mpr
    intro e he
    have he' : e ∈ (latentL g).filter
        (fun e => decide (¬ e.1 ∈ doSets g n ∧ ¬ e.2 ∈ doSets g n)) := he
    exact (List.mem_filter.mp he').2
  have hlatR : (⟨obs g1, doEdges g1 n, doLatent g1 n, doSets g1 n⟩ :
      CGM).latent_edges = g1.latent_edges := by
    show doLatent g1 n = g1.latent_edges
    rw [hdl, hlatent1]
  have hsynR : synthEdges ⟨obs g1, doEdges g1 n, doLatent g1 n, doSets g1 n⟩
      = synthEdges g1 := synthEdges_congr hlatR
  have hn1' : n ∈ obs g1 := by rw [hobs1]; exact hn
  have hE : ∀ e : String × String,
      e ∈ dagEdges ⟨obs g1, doEdges g1 n, doLatent g1 n, doSets g1 n⟩ ↔
        e ∈ dagEdges g1 := by
    intro e
    show e ∈ (⟨obs g1, doEdges g1 n, doLatent g1 n, doSets g1 n⟩ :
      CGM).edges ++ synthEdges _ ↔ _
    rw [hsynR]
    show e ∈ doEdges g1 n ++ synthEdges g1 ↔ e ∈ dagEdges g1
    simp only [List.mem_append]
    constructor
    · rintro (h1 | h2)
      · have h1' : e ∈ (dagEdges g1).filter
            (fun e => decide (¬ e.2 = n ∧ e.1 ∈ obs g1 ∧ e.2 ∈ obs g1)) := h1
        exact (List.mem_filter.mp h1').1
      · exact List.mem_append_right _ h2
    · intro hmem
      rcases List.mem_append.mp hmem with h1 | h2
      · left
        show e ∈ (dagEdges g1).filter
          (fun e => decide (¬ e.2 = n ∧ e.1 ∈ obs g1 ∧ e.2 ∈ obs g1))
        refine List.mem_filter.mpr ⟨List.mem_append_left _ h1, ?_⟩
        rw [hedges1] at h1
        have h1' : e ∈ (dagEdges g).filter
            (fun e => decide (¬ e.2 = n ∧ e.1 ∈ obs g ∧ e.2 ∈ obs g)) := h1
        have hp := of_decide_eq_true (List.mem_filter.mp h1').2
        rw [hobs1]
        exact decide_eq_true hp
      · exact Or.inr h2
  have hvR : validCGM ⟨obs g1, doEdges g1 n, doLatent g1 n, doSets g1 n⟩ := by
    constructor
    · exact acyclicB_congr (fun e => (hE e).symm) hv1.1
    · refine setNodesOk_congr ?_ ?_ hE hv1.2
      · intro s
        show s ∈ doSets g1 n ↔ s ∈ g1.set_nodes
        rw [hds]
      · exact dagNodes_mem_congr rfl hE
  refine ⟨⟨obs g1, doEdges g1 n, doLatent g1 n, doSets g1 n⟩,
    ?_, ?_, hds, hlatR, hE⟩
  · unfold doOp mkCGM
    rw [if_pos hn1', if_pos hvR]
  · show obs g1 = g1.nodes
    rfl

/-- C1: for observed variables x, y and an observed conditioning set,
is_d_separated(x, y, Z) returns true exactly when every simple path
between x and y in the undirected shadow graph is blocked by Z, where a
path of fewer than three nodes is never blocked and a longer path is
blocked exactly when some consecutive triple is a chain or fork with its
middle in Z, or a collider whose descendants together with the middle are
disjoint from Z. -/
theorem claim_C1 (g : CGM) (x y : String) (zs : List String)
    (hx : x ∈ obs g) (hy : y ∈ obs g) (hz : ∀ z ∈ zs, z ∈ obs g)
    (hxy : x ≠ y) :
    isDSeparated g x y zs = Except.ok true ↔
      ∀ p, SimplePath (AdjRel g) x y p → SpecBlocked g zs p :=
  isDSeparated_spec g x y zs hx hy hz hxy

/-- Witness for C1 at the sprinkler network. -/
theorem claim_C1_witness :
    ("rain" ∈ obs sprinkler ∧ "sprinkler" ∈ obs sprinkler ∧
      (∀ z ∈ ["season"], z ∈ obs sprinkler) ∧ "rain" ≠ "sprinkler") ∧
    (isDSeparated sprinkler "rain" "sprinkler" ["season"] =
        Except.ok true ↔
      ∀ p, SimplePath (AdjRel sprinkler) "rain" "sprinkler" p →
        SpecBlocked sprinkler ["season"] p) :=
  ⟨⟨by decide, by decide, by decide, by decide⟩,
    claim_C1 sprinkler "rain" "sprinkler" ["season"]
      (by decide) (by decide) (by decide) (by decide)⟩

/-- C2: under its asserts, is_valid_backdoor_adjustment_set(x, y, Z)
returns true exactly when Z contains no descendant of x and every
backdoor path from x to y is blocked by Z; on the confounder graph the
empty set is rejected and the singleton z accepted. -/
theorem claim_C2 :
    (∀ (g : CGM) (x y : String) (z : List String),
      x ∈ obs g → y ∈ obs g → (∀ w ∈ z, w ∈ obs g) →
      ¬ x ∈ z → ¬ y ∈ z →
      (isValidBackdoorAdjustmentSet g x y z = Except.ok true ↔
        BackdoorValidSpec g x y z)) ∧
    isValidBackdoorAdjustmentSet simpleConfounded "x" "y" [] =
      Except.ok false ∧
    isValidBackdoorAdjustmentSet simpleConfounded "x" "y" ["z"] =
      Except.ok true :=
  ⟨fun g x y z hx hy _ hxz hyz => backdoorValid_iff g x y z hx hy hxz hyz,
    rfl, rfl⟩

/-- Witness for C2 at the confounder graph with the singleton z. -/
theorem claim_C2_witness :
    ("x" ∈ obs simpleConfounded ∧ "y" ∈ obs simpleConfounded ∧
      (∀ w ∈ ["z"], w ∈ obs simpleConfounded) ∧
      ¬ "x" ∈ (["z"] : List String) ∧ ¬ "y" ∈ (["z"] : List String)) ∧
    (isValidBackdoorAdjustmentSet simpleConfounded "x" "y" ["z"] =
        Except.ok true ↔
      BackdoorValidSpec simpleConfounded "x" "y" ["z"]) :=
  ⟨⟨by decide, by decide, by decide, by decide, by decide⟩,
    claim_C2.1 simpleConfounded "x" "y" ["z"]
      (by decide) (by decide) (by decide) (by decide) (by decide)⟩

/-- C3: for observed x, y and an observed set Z not containing x, with x
distinct from y, is_valid_frontdoor_adjustment_set(x, y, Z) returns true
exactly when every directed path from x to y passes through Z, every
backdoor path from x to a member z of Z is blocked by Z minus z, and for
every z in Z the singleton x is a valid backdoor adjustment set for the
effect of z on y; on the frontdoor example the singleton z is accepted. -/
theorem claim_C3 :
    (∀ (g : CGM) (x y : String) (z : List String),
      x ∈ obs g → y ∈ obs g → (∀ w ∈ z, w ∈ obs g) → ¬ x ∈ z → x ≠ y →
      (isValidFrontdoorAdjustmentSet g x y z = Except.ok true ↔
        FrontdoorValidSpec g x y z)) ∧
    isValidFrontdoorAdjustmentSet frontDoorExample "x" "y" ["z"] =
      Except.ok true :=
  ⟨fun g x y z _ hy hz hxz hxy => frontdoorValid_iff g x y z hy hz hxz hxy,
    rfl⟩

/-- Witness for C3 at the frontdoor example with the singleton z. -/
theorem claim_C3_witness :
    ("x" ∈ obs frontDoorExample ∧ "y" ∈ obs frontDoorExample ∧
      (∀ w ∈ ["z"], w ∈ obs frontDoorExample) ∧
      ¬ "x" ∈ (["z"] : List String) ∧ "x" ≠ "y") ∧
    (isValidFrontdoorAdjustmentSet frontDoorExample "x" "y" ["z"] =
        Except.ok true ↔
      FrontdoorValidSpec frontDoorExample "x" "y" ["z"]) :=
  ⟨⟨by decide, by decide, by decide, by decide, by decide⟩,
    claim_C3.1 frontDoorExample "x" "y" ["z"]
      (by decide) (by decide) (by decide) (by decide) (by decide)⟩

/-- C4: get_all_backdoor_adjustment_sets(x, y) succeeds and returns, as a
set of sets, exactly the subsets of the candidate pool of observed
variables other than x, y and the descendants of x that satisfy the
backdoor criterion; on the hidden confounder graph the result is the
empty collection, distinct from a collection containing the empty set. -/
theorem claim_C4 :
    (∀ (g : CGM) (x y : String), x ∈ obs g → y ∈ obs g →
      ∃ L, getAllBackdoorAdjustmentSets g x y = Except.ok L ∧
        ∀ S : Finset String,
          ((∃ s ∈ L, s.toFinset = S) ↔
            ((∀ v ∈ S, v ∈ obs g ∧ v ≠ x ∧ v ≠ y ∧
                ¬ (Reaches (dagEdges g) x v ∧ v ≠ x)) ∧
              BackdoorValidSpec g x y S.toList))) ∧
    getAllBackdoorAdjustmentSets simpleConfoundedHidden "x" "y" =
      Except.ok [] :=
  ⟨fun g x y hx hy => getAllBackdoor_spec g x y hx hy, rfl⟩

/-- Witness for C4 at the confounder graph. -/
theorem claim_C4_witness :
    ("x" ∈ obs simpleConfounded ∧ "y" ∈ obs simpleConfounded) ∧
    (∃ L, getAllBackdoorAdjustmentSets simpleConfounded "x" "y" =
        Except.ok L ∧
      ∀ S : Finset String,
        ((∃ s ∈ L, s.toFinset = S) ↔
          ((∀ v ∈ S, v ∈ obs simpleConfounded ∧ v ≠ "x" ∧ v ≠ "y" ∧
              ¬ (Reaches (dagEdges simpleConfounded) "x" v ∧ v ≠ "x")) ∧
            BackdoorValidSpec simpleConfounded "x" "y" S.toList))) :=
  ⟨⟨by decide, by decide⟩,
    claim_C4.1 simpleConfounded "x" "y" (by decide) (by decide)⟩

/-- C5 counterexample: a validly constructed store with a node named
Unobserved_0 on which do("n") raises instead of returning a store, because
renumbering the remaining latent confounder makes the rebuilt graph
cyclic. -/
theorem claim_C5_counterexample :
    validCGM doFailStore ∧ "n" ∈ obs doFailStore ∧
      doOp doFailStore "n" = Except.error "StructureError" :=
  ⟨by decide, by decide, rfl⟩

/-- C5 as amended: whenever do(node) does return a store, that store has
no dag edge into the node, the node among its set nodes, exactly the
announced filtered directed edges and latent edges, the enlarged set node
set, and the same observed variables. -/
theorem claim_C5 (g : CGM) (n : String) (g' : CGM)
    (h : doOp g n = Except.ok g') :
    (∀ u : String, ¬ (u, n) ∈ dagEdges g') ∧
    n ∈ g'.set_nodes ∧
    (∀ e : String × String, e ∈ g'.edges ↔
      e ∈ dagEdges g ∧ ¬ e.2 = n ∧ e.1 ∈ obs g ∧ e.2 ∈ obs g) ∧
    (∀ e : String × String, e ∈ latentL g' ↔
      e ∈ latentL g ∧ ¬ e.1 ∈ g'.set_nodes ∧ ¬ e.2 ∈ g'.set_nodes) ∧
    (∀ s, s ∈ g'.set_nodes ↔ s ∈ g.set_nodes ∨ s = n) ∧
    (∀ v, v ∈ obs g' ↔ v ∈ obs g) :=
  doOp_components g n g' h

/-- Witness for C5 at do("x") on the confounder graph. -/
theorem claim_C5_witness :
    doOp simpleConfounded "x" = Except.ok simpleConfoundedDoX ∧
    ((∀ u : String, ¬ (u, "x") ∈ dagEdges simpleConfoundedDoX) ∧
      "x" ∈ simpleConfoundedDoX.set_nodes ∧
      (∀ e : String × String, e ∈ simpleConfoundedDoX.edges ↔
        e ∈ dagEdges simpleConfounded ∧ ¬ e.2 = "x" ∧
          e.1 ∈ obs simpleConfounded ∧ e.2 ∈ obs simpleConfounded) ∧
      (∀ e : String × String, e ∈ latentL simpleConfoundedDoX ↔
        e ∈ latentL simpleConfounded ∧
          ¬ e.1 ∈ simpleConfoundedDoX.set_nodes ∧
          ¬ e.2 ∈ simpleConfoundedDoX.set_nodes) ∧
      (∀ s, s ∈ simpleConfoundedDoX.set_nodes ↔
        s ∈ simpleConfounded.set_nodes ∨ s = "x") ∧
      (∀ v, v ∈ obs simpleConfoundedDoX ↔ v ∈ obs simpleConfounded)) :=
  ⟨rfl, claim_C5 simpleConfounded "x" simpleConfoundedDoX rfl⟩

/-- C6 counterexample: with the single edge y to x, the two node path
x, y is a simple shadow path whose second node is a parent of x, yet
get_all_backdoor_paths returns nothing, against the claimed inclusion of
the two node path. -/
theorem claim_C6_counterexample :
    SimplePath (AdjRel twoNodeStore) "x" "y" ["x", "y"] ∧
    (["x", "y"] : List String).tail.head? = some "y" ∧
    ("y", "x") ∈ dagEdges twoNodeStore ∧
    ¬ ["x", "y"] ∈ backdoorPaths twoNodeStore "x" "y" :=
  ⟨⟨rfl, rfl, List.chain'_pair.mpr (by decide), by decide⟩,
    rfl, by decide, by decide⟩

/-- C6 as amended: for distinct observed variables, get_all_backdoor_paths
returns exactly the simple shadow paths of at least three nodes whose
second node is a parent of x; the two node path given by a direct edge
from y into x is excluded. -/
theorem claim_C6 (g : CGM) (x y : String) (hx : x ∈ obs g)
    (hy : y ∈ obs g) (hxy : x ≠ y) (p : List String) :
    p ∈ backdoorPaths g x y ↔
      SimplePath (AdjRel g) x y p ∧ 3 ≤ p.length ∧
        ∃ b, p.tail.head? = some b ∧ (b, x) ∈ dagEdges g :=
  mem_backdoorPaths g x y hxy p

/-- Witness for C6 at the confounder graph and the path x, z, y. -/
theorem claim_C6_witness :
    ("x" ∈ obs simpleConfounded ∧ "y" ∈ obs simpleConfounded ∧
      "x" ≠ "y") ∧
    (["x", "z", "y"] ∈ backdoorPaths simpleConfounded "x" "y" ↔
      SimplePath (AdjRel simpleConfounded) "x" "y" ["x", "z", "y"] ∧
        3 ≤ (["x", "z", "y"] : List String).length ∧
        ∃ b, (["x", "z", "y"] : List String).tail.head? = some b ∧
          (b, "x") ∈ dagEdges simpleConfounded) :=
  ⟨⟨by decide, by decide, by decide⟩,
    claim_C6 simpleConfounded "x" "y" (by decide) (by decide) (by decide)
      ["x", "z", "y"]⟩

/-- C7: is_d_separated is symmetric in its two end points, errors
included. -/
theorem claim_C7 (g : CGM) (x y : String) (zs : List String) :
    isDSeparated g x y zs = isDSeparated g y x zs := by
  by_cases hg : x ∈ obs g ∧ y ∈ obs g ∧ ∀ z ∈ zs, z ∈ obs g
  · obtain ⟨hx, hy, hz⟩ := hg
    by_cases hxy : x = y
    · subst hxy
      rfl
    · have h1 : ∃ b, isDSeparated g x y zs = Except.ok b := by
        unfold isDSeparated
        rw [if_pos ⟨hx, hy, hz⟩]
        exact (allBlocked_spec g zs _ (allSimplePathsU_chain g x y)).2
      have h2 : ∃ b, isDSeparated g y x zs = Except.ok b := by
        unfold isDSeparated
        rw [if_pos ⟨hy, hx, hz⟩]
        exact (allBlocked_spec g zs _ (allSimplePathsU_chain g y x)).2
      obtain ⟨b1, hb1⟩ := h1
      obtain ⟨b2, hb2⟩ := h2
      have hAB : isDSeparated g x y zs = Except.ok true ↔
          isDSeparated g y x zs = Except.ok true := by
        rw [isDSeparated_spec g x y zs hx hy hz hxy,
          isDSeparated_spec g y x zs hy hx hz (Ne.symm hxy)]
        constructor
        · intro hA p hp
          have hb := hA p.reverse (simplePath_reverse g y x p hp)
          exact (specBlocked_reverse g zs p).mp hb
        · intro hB p hp
          have hb := hB p.reverse (simplePath_reverse g x y p hp)
          exact (specBlocked_reverse g zs p).mp hb
      rw [hb1, hb2]
      cases b1 <;> cases b2
      · rfl
      · exfalso
        have := hAB.mpr hb2
        rw [hb1] at this
        simp at this
      · exfalso
        have := hAB.mp hb1
        rw [hb2] at this
        simp at this
      · rfl
  · unfold isDSeparated
    rw [if_neg hg, if_neg (fun h => hg ⟨h.2.1, h.1, h.2.2⟩)]

/-- C8: every consecutive triple of a simple path in the shadow graph of
a validly constructed store classifies as chain, fork or collider; the
ValueError branch is unreachable. -/
theorem claim_C8 (g : CGM) (x y : String) (p : List String)
    (a b c : String) (hval : validCGM g)
    (hp : SimplePath (AdjRel g) x y p)
    (ht : (a, b, c) ∈ triples p) : (classifyThree g a b c).isSome := by
  have hadj := triples_adj p hp.2.2.1 (a, b, c) ht
  exact classifyThree_isSome hadj.1 hadj.2

/-- Witness for C8 at the confounder graph and the path x, z, y. -/
theorem claim_C8_witness :
    (validCGM simpleConfounded ∧
      SimplePath (AdjRel simpleConfounded) "x" "y" ["x", "z", "y"] ∧
      ("x", "z", "y") ∈ triples ["x", "z", "y"]) ∧
    (classifyThree simpleConfounded "x" "z" "y").isSome := by
  have hp : SimplePath (AdjRel simpleConfounded) "x" "y" ["x", "z", "y"] :=
    ⟨rfl, rfl, List.chain'_cons.mpr
      ⟨by decide, List.chain'_pair.mpr (by decide)⟩, by decide⟩
  exact ⟨⟨by decide, hp, by decide⟩,
    claim_C8 simpleConfounded "x" "y" ["x", "z", "y"] "x" "z" "y"
      (by decide) hp (by decide)⟩

/-- C9 counterexample: a successfully constructed store with a user node
named Unobserved_0 and one latent edge, in which the synthetic identifier
also belongs to the observed variables, violating disjointness. -/
theorem claim_C9_counterexample :
    validCGM collidingStore ∧
      "Unobserved_0" ∈ obs collidingStore ∧
      "Unobserved_0" ∈ unobservedNames collidingStore :=
  ⟨by decide, by decide, by decide⟩

/-- C9 as amended: every successfully constructed store carries one
synthetic identifier per declared latent confounder, of the form
Unobserved_i, and the unobserved identifiers are disjoint from the
observed variables exactly when no user supplied node carries one of
those synthetic names. -/
theorem claim_C9 (g : CGM) (hval : validCGM g) :
    (unobservedNames g).length = (latentL g).length ∧
    ((∀ u ∈ unobservedNames g, ¬ u ∈ obs g) ↔
      ∀ i < (latentL g).length, ¬ unobName i ∈ obs g) := by
  refine ⟨by unfold unobservedNames; simp, ?_⟩
  unfold unobservedNames
  constructor
  · intro h i hi
    exact h (unobName i) (List.mem_map.mpr ⟨i, List.mem_range.mpr hi, rfl⟩)
  · intro h u hu
    rcases List.mem_map.mp hu with ⟨i, hi, rfl⟩
    exact h i (List.mem_range.mp hi)

/-- Witness for C9 at the colliding store. -/
theorem claim_C9_witness :
    validCGM collidingStore ∧
    ((unobservedNames collidingStore).length =
        (latentL collidingStore).length ∧
      ((∀ u ∈ unobservedNames collidingStore, ¬ u ∈ obs collidingStore) ↔
        ∀ i < (latentL collidingStore).length,
          ¬ unobName i ∈ obs collidingStore)) :=
  ⟨by decide, claim_C9 collidingStore (by decide)⟩

/-- C10: the intervention operator is idempotent: when do(node) returns a
store, applying do(node) to it succeeds and yields a store with the same
observed variables, set nodes, directed edges between observed variables
and latent edges. -/
theorem claim_C10 (g : CGM) (n : String) (g1 : CGM)
    (h : doOp g n = Except.ok g1) :
    ∃ g2, doOp g1 n = Except.ok g2 ∧
      (∀ v, v ∈ obs g2 ↔ v ∈ obs g1) ∧
      (∀ s, s ∈ g2.set_nodes ↔ s ∈ g1.set_nodes) ∧
      (∀ a b, a ∈ obs g2 → b ∈ obs g2 →
        ((a, b) ∈ dagEdges g2 ↔ (a, b) ∈ dagEdges g1)) ∧
      (∀ e : String × String, e ∈ latentL g2 ↔ e ∈ latentL g1) := by
  obtain ⟨g2, hok, hnodes, hsets, hlat, hE⟩ := doOp_idem g n g1 h
  refine ⟨g2, hok, ?_, ?_, ?_, ?_⟩
  · intro v
    unfold obs
    rw [hnodes]
  · intro s
    rw [hsets]
  · intro a b _ _
    exact hE (a, b)
  · intro e
    unfold latentL
    rw [hlat]

/-- Witness for C10 at do("x") on the confounder graph. -/
theorem claim_C10_witness :
    doOp simpleConfounded "x" = Except.ok simpleConfoundedDoX ∧
    (∃ g2, doOp simpleConfoundedDoX "x" = Except.ok g2 ∧
      (∀ v, v ∈ obs g2 ↔ v ∈ obs simpleConfoundedDoX) ∧
      (∀ s, s ∈ g2.set_nodes ↔ s ∈ simpleConfoundedDoX.set_nodes) ∧
      (∀ a b, a ∈ obs g2 → b ∈ obs g2 →
        ((a, b) ∈ dagEdges g2 ↔ (a, b) ∈ dagEdges simpleConfoundedDoX)) ∧
      (∀ e : String × String,
        e ∈ latentL g2 ↔ e ∈ latentL simpleConfoundedDoX)) :=
  ⟨rfl, claim_C10 simpleConfounded "x" simpleConfoundedDoX rfl⟩

end CGMSpec

